import Mathlib

/-!
Verification model of the iDig server core (api.go and the go-git backend).

The Go sources are shallowly embedded:
* Go byte strings (`[]byte`) are modelled by `GBytes`; serialized survey JSON
  is abstracted as the constructor `GBytes.jsonSurvey` applied to the
  canonical (key-sorted, duplicate-free) association list, which models that
  `json.MarshalIndent` of a `map[string]string` is a deterministic, injective
  encoding of the map.
* git object hashes are modelled by the Merkle value of the object itself
  (`Hash`), which models a collision-free content-addressed store: two objects
  have the same hash exactly when they have the same content.  The set of
  commit objects that were actually written to the store is tracked in
  `Backend.objs`; blobs and trees are self-describing.
* Go `map` iteration order is unspecified; wherever the code iterates a map
  the model fixes a deterministic enumeration order.  All claims proved below
  are insensitive to that order.
* Version strings in requests are modelled as `Option Hash`: `none` is the
  empty string, and an arbitrary string that is not the hex form of any stored
  commit behaves exactly like `some h` for an unresolvable `h`.
-/

namespace IDig

/-- Byte strings. `raw` is an arbitrary byte sequence; `jsonSurvey m` stands
for the `json.MarshalIndent` encoding of the string map `m` (keys sorted and
unique, two-space indent). -/
inductive GBytes where
  | raw (l : List Nat)
  | jsonSurvey (s : List (String × String))
deriving DecidableEq, Repr

/-- Go `len(b) == 0` / `bytes.Equal(b, nil)`: the nil slice and the empty
slice are identified, both are `raw []`. -/
def GBytes.isEmpty : GBytes → Bool
  | .raw [] => true
  | _ => false

/-- git file modes used by the backend (`filemode.Regular`, `filemode.Dir`). -/
inductive Mode where
  | regular
  | dir
deriving DecidableEq, Repr

mutual
/-- A git object hash, identified with the Merkle value of the object.
`commit device user time message treeH parents` models `object.Commit` with
`Author.Name = device`, `Author.Email = user`, `Author.When = time`
(committer equals author in this code base). -/
inductive Hash where
  | blob (data : GBytes)
  | tree (entries : Entries)
  | commit (device user : String) (time : Nat) (message : String)
      (treeH : Hash) (parents : Parents)
deriving DecidableEq

/-- Entry list of a git tree: `(name, mode, hash)` triples. -/
inductive Entries where
  | nil
  | cons (name : String) (mode : Mode) (h : Hash) (rest : Entries)
deriving DecidableEq

/-- Parent list of a commit. -/
inductive Parents where
  | nil
  | cons (h : Hash) (rest : Parents)
deriving DecidableEq
end

/-- A tree entry as a triple, for list-level manipulation. -/
abbrev Entry := String × Mode × Hash

def Entries.toList : Entries → List Entry
  | .nil => []
  | .cons n m h rest => (n, m, h) :: rest.toList

def Entries.ofList : List Entry → Entries
  | [] => .nil
  | (n, m, h) :: rest => .cons n m h (Entries.ofList rest)

def Parents.toList : Parents → List Hash
  | .nil => []
  | .cons h rest => h :: rest.toList

def Parents.ofList : List Hash → Parents
  | [] => .nil
  | h :: rest => .cons h (Parents.ofList rest)

theorem Entries.toList_ofList_ent (l : List Entry) : (Entries.ofList l).toList = l := by
  induction l with
  | nil => rfl
  | cons e rest ih => cases e with | mk n p => cases p with | mk m h =>
      simp [Entries.ofList, Entries.toList, ih]

theorem Parents.toList_ofList_par (l : List Hash) : (Parents.ofList l).toList = l := by
  induction l with
  | nil => rfl
  | cons h rest ih => simp [Parents.ofList, Parents.toList, ih]

/-! ## String helpers

Go strings are byte strings; the operations the code uses (`strings.Split` on
`"\n\n"` and `"\n"`, `strings.Cut` on `"="`, `strings.HasPrefix` on `"."`,
lexicographic byte order for `sort.Strings`) are modelled structurally on the
character list of a `String`.  For the character ranges involved the
byte-lexicographic order of UTF-8 equals the code-point-lexicographic order.
-/

/-- Go `strings.Split(s, sep)` for a one-character separator. -/
def splitChar (sep : Char) : List Char → List (List Char)
  | [] => [[]]
  | c :: rest =>
    if c = sep then [] :: splitChar sep rest
    else
      match splitChar sep rest with
      | [] => [[c]]
      | g :: gs => (c :: g) :: gs

/-- Go `strings.Split(s, "\n\n")`: split around non-overlapping, leftmost
occurrences of the two-character separator. -/
def splitBlankLine : List Char → List (List Char)
  | '\n' :: '\n' :: rest => [] :: splitBlankLine rest
  | c :: rest =>
    match splitBlankLine rest with
    | [] => [[c]]
    | g :: gs => (c :: g) :: gs
  | [] => [[]]

/-- Go `strings.Cut(s, "=")`: the part before the first `'='`, the part after
it, and whether one was found. -/
def cutEq : List Char → List Char × List Char × Bool
  | [] => ([], [], false)
  | c :: rest =>
    if c = '=' then ([], rest, true)
    else
      match cutEq rest with
      | (before, after, found) => (c :: before, after, found)

/-- Go `strings.HasPrefix(s, ".")`. -/
def startsDot (s : String) : Bool :=
  match s.data with
  | c :: _ => c = '.'
  | [] => false

/-- Byte-lexicographic comparison of character lists (Go string `<=`). -/
def lexLe : List Char → List Char → Bool
  | [], _ => true
  | _ :: _, [] => false
  | a :: as, b :: bs =>
    if a.toNat < b.toNat then true
    else if b.toNat < a.toNat then false
    else lexLe as bs

/-- Go string order, as a proposition for sorting lemmas. -/
def strLe (a b : String) : Prop := lexLe a.data b.data = true

instance : DecidableRel strLe := fun _ _ => inferInstanceAs (Decidable (_ = true))

theorem lexLe_total (a b : List Char) : lexLe a b = true ∨ lexLe b a = true := by
  induction a generalizing b with
  | nil => left; rfl
  | cons x xs ih =>
    cases b with
    | nil => right; rfl
    | cons y ys =>
      by_cases hxy : x.toNat < y.toNat
      · left; simp [lexLe, hxy]
      · by_cases hyx : y.toNat < x.toNat
        · right; simp [lexLe, hyx]
        · rcases ih ys with h | h
          · left; simp [lexLe, hxy, hyx, h]
          · right; simp [lexLe, hxy, hyx, h]

theorem lexLe_trans {a b c : List Char} (h1 : lexLe a b = true)
    (h2 : lexLe b c = true) : lexLe a c = true := by
  induction a generalizing b c with
  | nil => rfl
  | cons x xs ih =>
    cases b with
    | nil => simp [lexLe] at h1
    | cons y ys =>
      cases c with
      | nil => simp [lexLe] at h2
      | cons z zs =>
        simp only [lexLe] at h1 h2 ⊢
        by_cases hxy : x.toNat < y.toNat <;> by_cases hyz : y.toNat < z.toNat
        · simp [show x.toNat < z.toNat by omega]
        · simp only [hyz, if_false] at h2
          by_cases hzy : z.toNat < y.toNat
          · simp [hzy] at h2
          · simp [show x.toNat < z.toNat by omega]
        · simp only [hxy, if_false] at h1
          by_cases hyx : y.toNat < x.toNat
          · simp [hyx] at h1
          · simp [show x.toNat < z.toNat by omega]
        · simp only [hxy, if_false] at h1
          by_cases hyx : y.toNat < x.toNat
          · simp [hyx] at h1
          · simp only [hyx, if_false] at h1
            simp only [hyz, if_false] at h2
            by_cases hzy : z.toNat < y.toNat
            · simp [hzy] at h2
            · simp only [hzy, if_false] at h2
              have hxz : ¬ x.toNat < z.toNat := by omega
              have hzx : ¬ z.toNat < x.toNat := by omega
              simp [hxz, hzx]; exact ih h1 h2

instance : IsTotal String strLe := ⟨fun a b => lexLe_total a.data b.data⟩

instance : IsTrans String strLe := ⟨fun _ _ _ h1 h2 => lexLe_trans h1 h2⟩

/-! ## Survey model (`type Survey map[string]string` and its methods) -/

/-- A survey: a string-to-string map, represented as an association list.
Lookup of an absent key yields `""`, as for a Go map. -/
abbrev Survey := List (String × String)

/-- Go map lookup `s[key]` (zero value `""` when absent). -/
def Survey.get (s : Survey) (key : String) : String :=
  match s.find? (fun p => p.1 == key) with
  | some p => p.2
  | none => ""

/-- `func (s Survey) ID() string`: the value at `IdentifierUUID` (the missing
identity merely logs a warning in the source). -/
def Survey.ID (s : Survey) : String := s.get "IdentifierUUID"

/-- An attachment reference `(name, checksum)` as extracted from a survey. -/
structure Attachment where
  name : String
  checksum : String
deriving DecidableEq, Repr

/-- One block of `RelationAttachments`: scan its lines, keeping the last
`n=` value as the name and the last `d=` value as the checksum. -/
def scanBlock : List (List Char) → String × String → String × String
  | [], acc => acc
  | line :: rest, (name, ts) =>
    match cutEq line with
    | (key, val, _) =>
      if String.mk key = "n" then scanBlock rest (String.mk val, ts)
      else if String.mk key = "d" then scanBlock rest (name, String.mk val)
      else scanBlock rest (name, ts)

/-- `func (s Survey) Attachments() []Attachment`: parse the value at
`RelationAttachments` as blank-line-separated blocks of `k=v` lines; a block
yields an attachment when both its name and checksum are non-empty. -/
def Survey.Attachments (s : Survey) : List Attachment :=
  (splitBlankLine (s.get "RelationAttachments").data).filterMap fun block =>
    match scanBlock (splitChar '\n' block) ("", "") with
    | (name, ts) => if name ≠ "" ∧ ts ≠ "" then some ⟨name, ts⟩ else none

/-- `func (s Survey) IsEqual(t Survey) bool`: equal values at every key of
the union of the key sets (absent = empty). -/
def Survey.IsEqual (s t : Survey) : Bool :=
  (s.map Prod.fst ++ t.map Prod.fst).all fun k => s.get k == t.get k

/-- Drop association-list entries whose key has already occurred (keys in
`seen` are also dropped).  A Go map never has duplicate keys, so on maps this
is the identity. -/
def dedupKeys (seen : List String) : List (String × String) → List (String × String)
  | [] => []
  | p :: rest =>
    if p.1 ∈ seen then dedupKeys seen rest
    else p :: dedupKeys (p.1 :: seen) rest

/-- Canonical form of a survey map: duplicate-free and key-sorted, the order
in which `json.Marshal` serializes a Go map. -/
def Survey.canon (s : Survey) : Survey :=
  List.insertionSort (fun a b => strLe a.1 b.1) (dedupKeys [] s)

/-- A patch for one survey id (`type Patch struct`). -/
structure Patch where
  id : String
  old : Survey
  new : Survey
deriving DecidableEq

/-- `type SurveyMap map[string]Survey`, as an association list with
overwrite-on-insert. -/
abbrev SurveyMap := List (String × Survey)

def SurveyMap.insert (id : String) (s : Survey) : SurveyMap → SurveyMap
  | [] => [(id, s)]
  | p :: rest => if p.1 == id then (id, s) :: rest else p :: SurveyMap.insert id s rest

/-- Go map lookup `m[id]` (zero value: nil survey, i.e. `[]`). -/
def SurveyMap.getS (m : SurveyMap) (id : String) : Survey :=
  match m.find? (fun p => p.1 == id) with
  | some p => p.2
  | none => []

/-- `func NewSurveyMap(surveys []Survey) SurveyMap`: index surveys by ID,
later entries overwriting earlier ones. -/
def NewSurveyMap (surveys : List Survey) : SurveyMap :=
  surveys.foldl (fun m s => SurveyMap.insert s.ID s m) []

/-- Duplicate-free list of strings in first-occurrence order. -/
def dedupStr (seen : List String) : List String → List String
  | [] => []
  | k :: rest =>
    if k ∈ seen then dedupStr seen rest
    else k :: dedupStr (k :: seen) rest

/-- `func diffSurveys(old, new []Survey) []Patch`: for every id in the union
of the two id sets, emit a patch when the two sides are not `IsEqual`.  The Go
code enumerates the union in map-iteration order; the model enumerates it in
first-occurrence order, a deterministic refinement. -/
def diffSurveys (old new : List Survey) : List Patch :=
  let oldMap := NewSurveyMap old
  let newMap := NewSurveyMap new
  (dedupStr [] (oldMap.map Prod.fst ++ newMap.map Prod.fst)).filterMap fun id =>
    let o := oldMap.getS id
    let n := newMap.getS id
    if o.IsEqual n then none else some ⟨id, o, n⟩

/-! ## String sets (`type Set map[string]struct{}` in util.go) -/

/-- The model keeps a `Set` as its members in insertion order, without
duplicates. -/
abbrev SSet := List String

/-- `func (s Set) Insert(k string)`. -/
def SSet.insert (s : SSet) (k : String) : SSet :=
  if k ∈ s then s else s ++ [k]

/-- `func (s Set) Array() []string`: the members, sorted. -/
def SSet.array (s : SSet) : List String :=
  List.insertionSort strLe s


/-! ## UTF-8 and URL-safe base64 (for `attachmentReference`)

The staging reference name is `base64.URLEncoding.WithPadding(base64.NoPadding)`
applied to the UTF-8 bytes of `name + "/" + checksum`, exactly as in the
source.  Both encodings are proved injective directly: the first byte of each
UTF-8 chunk and the length of each base64 chunk determine the decomposition.
-/

/-- UTF-8 encoding of one code point. -/
def utf8Char (n : Nat) : List Nat :=
  if n < 0x80 then [n]
  else if n < 0x800 then [0xC0 + n / 64, 0x80 + n % 64]
  else if n < 0x10000 then [0xE0 + n / 4096, 0x80 + n / 64 % 64, 0x80 + n % 64]
  else [0xF0 + n / 262144, 0x80 + n / 4096 % 64, 0x80 + n / 64 % 64, 0x80 + n % 64]

/-- UTF-8 encoding of a character list. -/
def utf8List : List Char → List Nat
  | [] => []
  | c :: cs => utf8Char c.toNat ++ utf8List cs

/-- The UTF-8 bytes of a string (Go `[]byte(s)`). -/
def utf8Bytes (s : String) : List Nat := utf8List s.data

theorem char_toNat_lt (c : Char) : c.toNat < 1114112 := by
  rcases c.valid with h | h
  · exact Nat.lt_trans h (by norm_num)
  · exact h.2

theorem utf8Char_step {m n : Nat} (hm : m < 1114112) (hn : n < 1114112)
    {l1 l2 : List Nat} (h : utf8Char m ++ l1 = utf8Char n ++ l2) :
    m = n ∧ l1 = l2 := by
  unfold utf8Char at h
  split_ifs at h <;>
    simp only [List.cons_append, List.nil_append, List.cons.injEq] at h <;>
    first
      | (exfalso; omega)
      | (refine ⟨by omega, ?_⟩; tauto)

theorem utf8Char_ne_nil {n : Nat} : utf8Char n ≠ [] := by
  unfold utf8Char; split_ifs <;> simp

theorem utf8Char_mem_lt {n x : Nat} (hn : n < 1114112) (hx : x ∈ utf8Char n) :
    x < 256 := by
  unfold utf8Char at hx
  split_ifs at hx
  · simp only [List.mem_singleton] at hx; omega
  · simp only [List.mem_cons, List.not_mem_nil, or_false] at hx
    rcases hx with h | h <;> omega
  · simp only [List.mem_cons, List.not_mem_nil, or_false] at hx
    rcases hx with h | h | h <;> omega
  · simp only [List.mem_cons, List.not_mem_nil, or_false] at hx
    rcases hx with h | h | h | h <;> omega

theorem utf8List_mem_lt {cs : List Char} {x : Nat} (hx : x ∈ utf8List cs) :
    x < 256 := by
  induction cs with
  | nil => simp [utf8List] at hx
  | cons c rest ih =>
    rw [utf8List, List.mem_append] at hx
    rcases hx with h | h
    · exact utf8Char_mem_lt (char_toNat_lt c) h
    · exact ih h

theorem utf8List_injective {cs ds : List Char} (h : utf8List cs = utf8List ds) :
    cs = ds := by
  induction cs generalizing ds with
  | nil =>
    cases ds with
    | nil => rfl
    | cons d rest =>
      rw [utf8List, utf8List] at h
      exact absurd h.symm (by simp [utf8Char_ne_nil])
  | cons c rest ih =>
    cases ds with
    | nil =>
      rw [utf8List, utf8List] at h
      exact absurd h (by simp [utf8Char_ne_nil])
    | cons d ds2 =>
      rw [utf8List, utf8List] at h
      obtain ⟨h1, h2⟩ := utf8Char_step (char_toNat_lt c) (char_toNat_lt d) h
      have hc : c = d := by
        have : Char.ofNat c.toNat = Char.ofNat d.toNat := by rw [h1]
        rwa [Char.ofNat_toNat, Char.ofNat_toNat] at this
      rw [hc, ih h2]

theorem utf8Bytes_injective {s t : String} (h : utf8Bytes s = utf8Bytes t) :
    s = t := by
  have h2 : s.data = t.data := utf8List_injective h
  cases s; cases t
  exact congrArg String.mk h2

/-- The URL-safe base64 alphabet: byte value of the character encoding sextet
`n` (`A-Z`, `a-z`, `0-9`, `-`, `_`). -/
def b64c (n : Nat) : Nat :=
  if n < 26 then 65 + n
  else if n < 52 then 97 + (n - 26)
  else if n < 62 then 48 + (n - 52)
  else if n = 62 then 45
  else 95

/-- URL-safe base64 without padding, over byte lists. -/
def b64encode : List Nat → List Nat
  | b1 :: b2 :: b3 :: rest =>
    b64c (b1 / 4) :: b64c (b1 % 4 * 16 + b2 / 16) :: b64c (b2 % 16 * 4 + b3 / 64)
      :: b64c (b3 % 64) :: b64encode rest
  | [b1, b2] => [b64c (b1 / 4), b64c (b1 % 4 * 16 + b2 / 16), b64c (b2 % 16 * 4)]
  | [b1] => [b64c (b1 / 4), b64c (b1 % 4 * 16)]
  | [] => []

/-- Total inverse of the base64 alphabet map (valid alphabet bytes only). -/
def b64dT (c : Nat) : Nat :=
  if 65 ≤ c ∧ c ≤ 90 then c - 65
  else if 97 ≤ c ∧ c ≤ 122 then 26 + (c - 97)
  else if 48 ≤ c ∧ c ≤ 57 then 52 + (c - 48)
  else if c = 45 then 62
  else 63

theorem b64dT_b64c {s : Nat} (hs : s < 64) : b64dT (b64c s) = s := by
  unfold b64c b64dT
  split_ifs <;> omega

/-- Total base64 decoder (inverse of `b64encode` on its image). -/
def b64decodeT : List Nat → List Nat
  | c1 :: c2 :: c3 :: c4 :: rest =>
    (b64dT c1 * 4 + b64dT c2 / 16) :: (b64dT c2 % 16 * 16 + b64dT c3 / 4)
      :: (b64dT c3 % 4 * 64 + b64dT c4) :: b64decodeT rest
  | [c1, c2, c3] => [b64dT c1 * 4 + b64dT c2 / 16, b64dT c2 % 16 * 16 + b64dT c3 / 4]
  | [c1, c2] => [b64dT c1 * 4 + b64dT c2 / 16]
  | [_] => []
  | [] => []

theorem b64decodeT_b64encode {l : List Nat} (hb : ∀ b ∈ l, b < 256) :
    b64decodeT (b64encode l) = l := by
  induction l using b64encode.induct with
  | case1 b1 b2 b3 rest ih =>
    have e1 : b1 < 256 := hb b1 (by simp)
    have e2 : b2 < 256 := hb b2 (by simp)
    have e3 : b3 < 256 := hb b3 (by simp)
    rw [b64encode]
    simp only [b64decodeT]
    rw [b64dT_b64c (by omega), b64dT_b64c (by omega), b64dT_b64c (by omega),
      b64dT_b64c (by omega), ih (fun b hm => hb b (by simp [hm]))]
    simp only [List.cons.injEq]
    refine ⟨by omega, by omega, by omega, trivial⟩
  | case2 b1 b2 =>
    have e1 : b1 < 256 := hb b1 (by simp)
    have e2 : b2 < 256 := hb b2 (by simp)
    rw [b64encode]
    simp only [b64decodeT]
    rw [b64dT_b64c (by omega), b64dT_b64c (by omega), b64dT_b64c (by omega)]
    simp only [List.cons.injEq]
    refine ⟨by omega, by omega, trivial⟩
  | case3 b1 =>
    have e1 : b1 < 256 := hb b1 (by simp)
    rw [b64encode]
    simp only [b64decodeT]
    rw [b64dT_b64c (by omega), b64dT_b64c (by omega)]
    simp only [List.cons.injEq]
    refine ⟨by omega, trivial⟩
  | case4 => rfl

theorem b64encode_injective {l1 l2 : List Nat} (hb1 : ∀ b ∈ l1, b < 256)
    (hb2 : ∀ b ∈ l2, b < 256) (h : b64encode l1 = b64encode l2) : l1 = l2 := by
  have := congrArg b64decodeT h
  rwa [b64decodeT_b64encode hb1, b64decodeT_b64encode hb2] at this


/-! ## The backend (`type Backend struct` and its methods)

State: the `HEAD` pointer, the set of commit objects written to the store,
and the named references under `refs/attachments/`.  Blob and tree objects
are self-describing in the Merkle model and need no store.  Reference names
are byte strings (`List Nat`).
-/

/-- A commit object's fields (`object.Commit`: author name = device, author
email = user). -/
structure CommitData where
  device : String
  user : String
  time : Nat
  message : String
  treeH : Hash
  parents : List Hash
deriving DecidableEq

/-- View a hash as a commit object. -/
def Hash.commitData : Hash → Option CommitData
  | .commit d u t m tr ps => some ⟨d, u, t, m, tr, ps.toList⟩
  | _ => none

/-- View a hash as a tree object (`TreeObject`); `none` models the lookup
error for a non-tree. -/
def Hash.treeEntries : Hash → Option (List Entry)
  | .tree es => some es.toList
  | _ => none

/-- `readBlob` / `BlobObject`: read a blob's bytes. -/
def readBlob : Hash → Except String GBytes
  | .blob d => .ok d
  | _ => .error "not a blob"

/-- Backend state (`type Backend struct` plus the trench repository state). -/
structure Backend where
  user : String
  trench : String
  readOnly : Bool
  head : Option Hash
  objs : List Hash
  refs : List (List Nat × Hash)
deriving DecidableEq

/-- A fresh backend over an empty repository (`NewBackend` on a new trench /
`NewMemoryBackend`). -/
def NewMemoryBackend (user trench : String) : Backend :=
  ⟨user, trench, false, none, [], []⟩

/-- Reference lookup (`b.r.Reference`): the stored hash, if the name exists. -/
def lookupRef (refs : List (List Nat × Hash)) (k : List Nat) : Option Hash :=
  match refs.find? (fun p => p.1 == k) with
  | some p => some p.2
  | none => none

/-- `SetReference`: overwrite or add a named reference. -/
def setRef (refs : List (List Nat × Hash)) (k : List Nat) (v : Hash) :
    List (List Nat × Hash) :=
  match refs with
  | [] => [(k, v)]
  | p :: rest => if p.1 == k then (k, v) :: rest else p :: setRef rest k v

/-- `func (b *Backend) Head() string`: the current head, `none` for the empty
string. -/
def Backend.Head (b : Backend) : Option Hash := b.head

/-- `CommitObject`: resolve a hash to a commit object stored in the
repository. -/
def Backend.commitObject (b : Backend) (h : Hash) : Option CommitData :=
  if h ∈ b.objs then h.commitData else none

/-- `func (b *Backend) attachmentReference(name, checksum string) string`:
`refs/attachments/` followed by the unpadded URL-safe base64 encoding of
`name + "/" + checksum`, as a byte string. -/
def Backend.attachmentReference (name checksum : String) : List Nat :=
  utf8Bytes "refs/attachments/" ++ b64encode (utf8Bytes (name ++ "/" ++ checksum))

/-- `func (b *Backend) ExistsAttachment(name, checksum string) bool`. -/
def Backend.ExistsAttachment (b : Backend) (name checksum : String) : Bool :=
  (lookupRef b.refs (Backend.attachmentReference name checksum)).isSome

/-- `func (b *Backend) ReadAttachment(name, checksum string) ([]byte, error)`. -/
def Backend.ReadAttachment (b : Backend) (name checksum : String) :
    Except String GBytes :=
  match lookupRef b.refs (Backend.attachmentReference name checksum) with
  | none => .error "Attachment not found"
  | some h => readBlob h

/-- `func (b *Backend) WriteAttachment(...)`: store the blob and point the
staging reference at it.  Fails with `Forbidden` in read-only mode. -/
def Backend.WriteAttachment (b : Backend) (name checksum : String)
    (data : GBytes) : Except String Backend :=
  if b.readOnly then .error "Forbidden"
  else .ok { b with
    refs := setRef b.refs (Backend.attachmentReference name checksum) (Hash.blob data) }

/-- `addTree`: sort the entries by name and store the tree.  Go uses an
unstable `sort.Slice` with a strict comparison; the model sorts stably, which
agrees with Go up to the relative order of equal names. -/
def addTree (entries : List Entry) : Hash :=
  Hash.tree (Entries.ofList (List.insertionSort (fun a b => strLe a.1 b.1) entries))

/-- `func (b *Backend) commit(user, device, message, tree)`: if the head
commit exists and already has this tree, return it unchanged (no new commit);
otherwise store a new commit with the head as its parent and advance `HEAD`. -/
def Backend.commit (b : Backend) (now : Nat) (user device message : String)
    (tree : Hash) : Except String (Hash × Backend) :=
  match b.head with
  | some hh =>
    match b.commitObject hh with
    | none => .error "head commit not found"
    | some cd =>
      if cd.treeH = tree then .ok (hh, b)
      else
        let c := Hash.commit device user now message tree (Parents.cons hh .nil)
        .ok (c, { b with head := some c, objs := c :: b.objs })
  | none =>
    let c := Hash.commit device user now message tree Parents.nil
    .ok (c, { b with head := some c, objs := c :: b.objs })

/-- Entries of the `surveys/` (or `attachments/`) subtree of a root tree
(`rootTree.Tree(name)`): find the entry, then read it as a tree. -/
def subTreeEntries (root : List Entry) (name : String) :
    Except String (List Entry) :=
  match root.find? (fun e => e.1 == name) with
  | none => .error "subtree not found"
  | some e =>
    match e.2.2.treeEntries with
    | some es => .ok es
    | none => .error "not a tree"

/-- Decode one survey blob (`json.Unmarshal` into a `Survey`). -/
def unmarshalSurvey : GBytes → Except String Survey
  | .jsonSurvey s => .ok s
  | .raw _ => .error "invalid survey"

/-- The loop body of `ReadSurveysAtVersion`: skip entries whose name starts
with a dot or that are not regular files; decode the rest in order. -/
def readSurveyEntries : List Entry → Except String (List Survey)
  | [] => .ok []
  | (name, mode, h) :: rest =>
    if startsDot name || decide (mode ≠ Mode.regular) then readSurveyEntries rest
    else do
      let data ← readBlob h
      let s ← unmarshalSurvey data
      let others ← readSurveyEntries rest
      .ok (s :: others)

/-- `func (b *Backend) ReadSurveysAtVersion(version string)`. -/
def Backend.ReadSurveysAtVersion (b : Backend) (v : Hash) :
    Except String (List Survey) :=
  match b.commitObject v with
  | none => .error "Invalid version"
  | some cd =>
    match cd.treeH.treeEntries with
    | none => .error "root tree not found"
    | some root => do
      let surv ← subTreeEntries root "surveys"
      readSurveyEntries surv

/-- `ReadSurveysAtVersion` on a client-supplied version string: the empty
string (and any string that resolves to no stored commit) fails with
`Invalid version`. -/
def Backend.ReadSurveysAtVersionStr (b : Backend) (v : Option Hash) :
    Except String (List Survey) :=
  match v with
  | none => .error "Invalid version"
  | some h => b.ReadSurveysAtVersion h

/-- `func (b *Backend) ReadSurveys()`: nil result on an empty head. -/
def Backend.ReadSurveys (b : Backend) : Except String (List Survey) :=
  match b.head with
  | none => .ok []
  | some h => b.ReadSurveysAtVersion h

/-- `func (b *Backend) ReadPreferencesAtVersion(version string)`. -/
def Backend.ReadPreferencesAtVersion (b : Backend) (v : Hash) :
    Except String GBytes :=
  match b.commitObject v with
  | none => .error "Invalid version"
  | some cd =>
    match cd.treeH.treeEntries with
    | none => .error "root tree not found"
    | some root =>
      match root.find? (fun e => e.1 == "Preferences.json") with
      | none => .error "Preferences.json not found"
      | some e => readBlob e.2.2

/-- `ReadPreferencesAtVersion` on a client-supplied version string. -/
def Backend.ReadPreferencesAtVersionStr (b : Backend) (v : Option Hash) :
    Except String GBytes :=
  match v with
  | none => .error "Invalid version"
  | some h => b.ReadPreferencesAtVersion h

/-- `func (b *Backend) ReadPreferences()`: nil bytes on an empty head. -/
def Backend.ReadPreferences (b : Backend) : Except String GBytes :=
  match b.head with
  | none => .ok (GBytes.raw [])
  | some h => b.ReadPreferencesAtVersion h

/-- The survey tree entry created for one submitted survey: a blob named
`<ID>.survey` holding the canonical JSON serialization. -/
def surveyEntry (s : Survey) : Entry :=
  (s.ID ++ ".survey", Mode.regular, Hash.blob (GBytes.jsonSurvey s.canon))

/-- The attachment tree entries for one survey: resolve each staging
reference (error when one is missing, as in the source). -/
def attEntriesOf (refs : List (List Nat × Hash)) : List Attachment →
    Except String (List Entry)
  | [] => .ok []
  | a :: rest =>
    match lookupRef refs (Backend.attachmentReference a.name a.checksum) with
    | none => .error "reference not found"
    | some h => do
      let others ← attEntriesOf refs rest
      .ok ((a.name, Mode.regular, h) :: others)

/-- The survey-entry and attachment-entry lists accumulated by the main loop
of `WriteTrench`. -/
def collectEntries (refs : List (List Nat × Hash)) : List Survey →
    Except String (List Entry × List Entry)
  | [] => .ok ([], [])
  | s :: rest => do
    let ae ← attEntriesOf refs s.Attachments
    let (ses, aes) ← collectEntries refs rest
    .ok (surveyEntry s :: ses, ae ++ aes)

/-- The root tree assembled by `WriteTrench`:
`{attachments, surveys, Preferences.json}`. -/
def writeRootTree (preferences : GBytes) (ses aes : List Entry) : Hash :=
  addTree [("attachments", Mode.dir, addTree aes),
    ("surveys", Mode.dir, addTree ses),
    ("Preferences.json", Mode.regular, Hash.blob preferences)]

/-- `func (b *Backend) WriteTrench(device, message, preferences, surveys)`:
fail with `Forbidden` when read-only; write every survey blob and resolve
every referenced attachment; assemble the root tree
`{attachments, surveys, Preferences.json}` and commit it. -/
def Backend.WriteTrench (b : Backend) (now : Nat) (device message : String)
    (preferences : GBytes) (surveys : List Survey) :
    Except String (Hash × Backend) :=
  if b.readOnly then .error "Forbidden"
  else do
    let (ses, aes) ← collectEntries b.refs surveys
    b.commit now b.user device message (writeRootTree preferences ses aes)

/-- `func (b *Backend) WritePreferences(preferences []byte)`: fail with
`Forbidden` when read-only; when a parent commit exists, copy its
`attachments` and `surveys` root entries unchanged; write the new
`Preferences.json` blob and commit. -/
def Backend.WritePreferences (b : Backend) (now : Nat) (preferences : GBytes) :
    Except String Backend :=
  if b.readOnly then .error "Forbidden"
  else
    match b.head with
    | some hh =>
      match b.commitObject hh with
      | none => .error "head commit not found"
      | some cd =>
        match cd.treeH.treeEntries with
        | none => .error "root tree not found"
        | some root =>
          match root.find? (fun e => e.1 == "attachments") with
          | none => .error "attachments entry not found"
          | some ea =>
            match root.find? (fun e => e.1 == "surveys") with
            | none => .error "surveys entry not found"
            | some es => do
              let t := addTree [ea, es,
                ("Preferences.json", Mode.regular, Hash.blob preferences)]
              let (_, b') ← b.commit now b.user "terminal" "Import Preferences" t
              .ok b'
    | none => do
      let t := addTree [("Preferences.json", Mode.regular, Hash.blob preferences)]
      let (_, b') ← b.commit now b.user "terminal" "Import Preferences" t
      .ok b'

/-- `func (b *Backend) Rollback(version string) error`: find the commit (the
model covers the full-hash lookup; the short-prefix scan resolves to the same
commit when unambiguous), and commit its tree on top of the current head.
Note: the source performs no read-only check here. -/
def Backend.Rollback (b : Backend) (now : Nat) (version : Hash) :
    Except String Backend :=
  match b.commitObject version with
  | none => .error "Invalid version"
  | some cd =>
    match cd.treeH.treeEntries with
    | none => .error "root tree not found"
    | some _ => do
      let (_, b') ← b.commit now b.user "terminal" "Rollback" cd.treeH
      .ok b'


/-! ## The sync state machine (`SyncTrench` in api.go) -/

/-- `type SyncRequest struct`.  `head` is the client's last sync version
(`none` for the empty string, and an unresolvable hash for any string the
server cannot resolve). -/
structure SyncRequest where
  device : String
  message : String
  head : Option Hash
  preferences : GBytes
  surveys : List Survey
deriving DecidableEq

/-- `type SyncResponse struct`.  Fields with Go zero values (`omitempty`)
are `raw []` / `[]` / `none`. -/
structure SyncResponse where
  status : String
  version : Option Hash
  preferences : GBytes
  missing : List String
  updates : List Patch
deriving DecidableEq

/-- The result of a handler: an HTTP status code with either a JSON response
or an error body. -/
inductive HResult where
  | ok (code : Nat) (resp : SyncResponse)
  | fail (code : Nat) (msg : String)
deriving DecidableEq

/-- The status of a successful sync response, if any. -/
def HResult.status : HResult → Option String
  | .ok _ r => some r.status
  | .fail _ _ => none

/-- The missing-attachment set accumulated by `SyncTrench` before a write:
for every attachment of every submitted survey whose staging reference does
not exist, insert its name. -/
def missingSet (b : Backend) (surveys : List Survey) : SSet :=
  surveys.foldl
    (fun acc s =>
      s.Attachments.foldl
        (fun acc2 a =>
          if b.ExistsAttachment a.name a.checksum then acc2
          else acc2.insert a.name)
        acc)
    []

/-- `func (s *Server) SyncTrench(c *gin.Context, b *Backend) (int, any)`:
the sync protocol decision.  Branches, in source order: pull when the head is
non-empty and differs from the client's; the read-only ok/forbidden diff;
the missing-attachments check; and the write with pushed/ok on the result. -/
def SyncTrench (b : Backend) (now : Nat) (req : SyncRequest) :
    HResult × Backend :=
  if _hpull : b.head ≠ none ∧ req.head ≠ b.head then
    -- Errors resolving the client head are ignored: empty fallbacks.
    let oldSurveys := (b.ReadSurveysAtVersionStr req.head).toOption.getD []
    let oldPrefs := (b.ReadPreferencesAtVersionStr req.head).toOption.getD (GBytes.raw [])
    match b.ReadSurveys with
    | .error e => (.fail 500 e, b)
    | .ok newSurveys =>
      match b.ReadPreferences with
      | .error e => (.fail 500 e, b)
      | .ok newPrefs =>
        let patches := diffSurveys oldSurveys newSurveys
        let prefsOut := if oldPrefs = newPrefs then GBytes.raw [] else newPrefs
        (.ok 200 ⟨"pull", b.head, prefsOut, [], patches⟩, b)
  else if b.readOnly then
    match b.ReadSurveys with
    | .error e => (.fail 500 e, b)
    | .ok surveys =>
      match b.ReadPreferences with
      | .error e => (.fail 500 e, b)
      | .ok preferences =>
        let patches := diffSurveys req.surveys surveys
        let prefsOut := if req.preferences = preferences then GBytes.raw [] else preferences
        let status := if patches.isEmpty then "ok" else "forbidden"
        (.ok 200 ⟨status, b.head, prefsOut, [], patches⟩, b)
  else
    let missing := missingSet b req.surveys
    if missing.isEmpty then
      match b.WriteTrench now req.device req.message req.preferences req.surveys with
      | .error e => (.fail 400 e, b)
      | .ok (newHead, b') =>
        let status := if some newHead ≠ b.head then "pushed" else "ok"
        (.ok 200 ⟨status, some newHead, GBytes.raw [], [], []⟩, b')
    else
      (.ok 200 ⟨"missing", b.head, GBytes.raw [], missing.array, []⟩, b)

/-! ## Operation sequences (for whole-history invariants) -/

/-- One state-changing entry point of the backend, as invoked by the server
or the CLI. -/
inductive Op where
  | writeTrench (now : Nat) (device message : String) (prefs : GBytes)
      (surveys : List Survey)
  | writeAttachment (name checksum : String) (data : GBytes)
  | writePreferences (now : Nat) (prefs : GBytes)
  | rollback (now : Nat) (version : Hash)
  | sync (now : Nat) (req : SyncRequest)
  | setReadOnly (v : Bool)

/-- Apply one operation; a failing operation leaves the state unchanged. -/
def applyOp (b : Backend) : Op → Backend
  | .writeTrench now d m p ss =>
    match b.WriteTrench now d m p ss with
    | .ok (_, b') => b'
    | .error _ => b
  | .writeAttachment n c d =>
    match b.WriteAttachment n c d with
    | .ok b' => b'
    | .error _ => b
  | .writePreferences now p =>
    match b.WritePreferences now p with
    | .ok b' => b'
    | .error _ => b
  | .rollback now v =>
    match b.Rollback now v with
    | .ok b' => b'
    | .error _ => b
  | .sync now req => (SyncTrench b now req).2
  | .setReadOnly v => { b with readOnly := v }

/-- Run a sequence of operations from a state. -/
def runOps (b : Backend) : List Op → Backend
  | [] => b
  | op :: rest => runOps (applyOp b op) rest

/-- Reachability along parent links, as resolvable from the Merkle value of
a commit: `Reach a c` when `c` is an ancestor of (or equal to) `a`. -/
inductive Reach : Hash → Hash → Prop
  | refl (c : Hash) : Reach c c
  | parent {a b c : Hash} {cd : CommitData} : Reach a b →
      b.commitData = some cd → c ∈ cd.parents → Reach a c

/-- The surveys recorded in a root tree: decode every blob entry of the
`surveys` subtree that carries a survey serialization. -/
def surveyBlobsOfTree (t : Hash) : List Survey :=
  match t.treeEntries with
  | none => []
  | some root =>
    match root.find? (fun e => e.1 == "surveys") with
    | none => []
    | some e =>
      match e.2.2.treeEntries with
      | none => []
      | some es =>
        es.filterMap fun en =>
          match en.2.2 with
          | .blob (.jsonSurvey s) => some s
          | _ => none

/-- The surveys recorded in a commit's tree. -/
def surveyBlobs (c : Hash) : List Survey :=
  match c.commitData with
  | none => []
  | some cd => surveyBlobsOfTree cd.treeH


/-- The entries of a named subtree of a commit's root tree (empty when any
step fails to resolve). -/
def subtreeEntriesOf (c : Hash) (name : String) : List Entry :=
  match c.commitData with
  | none => []
  | some cd =>
    match cd.treeH.treeEntries with
    | none => []
    | some root =>
      match root.find? (fun e => e.1 == name) with
      | none => []
      | some e => (Hash.treeEntries e.2.2).getD []

instance {ε α : Type} [DecidableEq ε] [DecidableEq α] : DecidableEq (Except ε α) :=
  fun x y =>
    match x, y with
    | .ok a, .ok b => decidable_of_iff (a = b) (by simp)
    | .error a, .error b => decidable_of_iff (a = b) (by simp)
    | .ok _, .error _ => isFalse (by simp)
    | .error _, .ok _ => isFalse (by simp)


/-! ## Helper lemmas: lookups, canonical surveys, sorted trees -/

theorem find?_key_perm {α : Type} (key : α → String) {l1 l2 : List α}
    (hp : l1.Perm l2) (hn : (l1.map key).Nodup) (k : String) :
    l1.find? (fun e => key e == k) = l2.find? (fun e => key e == k) := by
  cases hf : l1.find? (fun e => key e == k) with
  | some e =>
    have he1 : e ∈ l1 := List.mem_of_find?_eq_some hf
    have hpe : key e = k := by
      have := List.find?_some hf
      simpa using this
    have hs2 : (l2.find? (fun e => key e == k)).isSome = true := by
      rw [List.find?_isSome]
      exact ⟨e, hp.mem_iff.mp he1, by simpa using hpe⟩
    cases hf2 : l2.find? (fun e => key e == k) with
    | some e2 =>
      have he2 : e2 ∈ l1 := hp.mem_iff.mpr (List.mem_of_find?_eq_some hf2)
      have hpe2 : key e2 = k := by
        have := List.find?_some hf2
        simpa using this
      have : e = e2 :=
        List.inj_on_of_nodup_map hn he1 he2 (by rw [hpe, hpe2])
      rw [this]
    | none => rw [hf2] at hs2; simp at hs2
  | none =>
    rw [List.find?_eq_none] at hf
    symm
    rw [List.find?_eq_none]
    intro x hx
    exact hf x (hp.mem_iff.mpr hx)

theorem Survey.get_cons (p : String × String) (rest : Survey) (k : String) :
    Survey.get (p :: rest) k = if (p.1 == k) = true then p.2 else Survey.get rest k := by
  unfold Survey.get
  rw [List.find?]
  by_cases h : (p.1 == k) = true <;> simp [h]

theorem dedupKeys_get {seen : List String} {s : Survey} {k : String}
    (hk : k ∉ seen) : Survey.get (dedupKeys seen s) k = Survey.get s k := by
  induction s generalizing seen with
  | nil => rfl
  | cons p rest ih =>
    by_cases hmem : p.1 ∈ seen
    · have hne : ¬ (p.1 == k) = true := by
        simp only [beq_iff_eq]
        intro he; rw [he] at hmem; exact hk hmem
      rw [dedupKeys, if_pos hmem, ih hk, Survey.get_cons, if_neg hne]
    · rw [dedupKeys, if_neg hmem, Survey.get_cons, Survey.get_cons]
      by_cases hpk : (p.1 == k) = true
      · rw [if_pos hpk, if_pos hpk]
      · rw [if_neg hpk, if_neg hpk]
        have hk2 : k ∉ p.1 :: seen := by
          intro hm
          rcases List.mem_cons.mp hm with he | hm2
          · rw [he] at hpk; simp at hpk
          · exact hk hm2
        exact ih hk2

theorem dedupKeys_keys_spec (seen : List String) (s : Survey) :
    ((dedupKeys seen s).map Prod.fst).Nodup ∧
      ∀ x ∈ (dedupKeys seen s).map Prod.fst, x ∉ seen := by
  induction s generalizing seen with
  | nil => exact ⟨List.nodup_nil, by simp [dedupKeys]⟩
  | cons p rest ih =>
    by_cases hmem : p.1 ∈ seen
    · rw [dedupKeys, if_pos hmem]; exact ih seen
    · rw [dedupKeys, if_neg hmem]
      obtain ⟨hnd, hdisj⟩ := ih (p.1 :: seen)
      refine ⟨?_, ?_⟩
      · rw [List.map_cons, List.nodup_cons]
        exact ⟨fun hm => hdisj p.1 hm (List.mem_cons_self _ _), hnd⟩
      · intro x hx
        rw [List.map_cons, List.mem_cons] at hx
        rcases hx with he | hm
        · rw [he]; exact hmem
        · intro hs; exact hdisj x hm (List.mem_cons_of_mem _ hs)

theorem canon_get (s : Survey) (k : String) :
    Survey.get s.canon k = Survey.get s k := by
  unfold Survey.canon
  have hperm := List.perm_insertionSort (fun a b : String × String => strLe a.1 b.1)
    (dedupKeys [] s)
  have hnd := (dedupKeys_keys_spec [] s).1
  have heq := find?_key_perm Prod.fst hperm.symm hnd k
  unfold Survey.get
  rw [← heq]
  have := @dedupKeys_get [] s k (by simp)
  unfold Survey.get at this
  exact this

theorem canon_Attachments (s : Survey) : s.canon.Attachments = s.Attachments := by
  unfold Survey.Attachments
  rw [show Survey.get s.canon "RelationAttachments"
    = Survey.get s "RelationAttachments" from canon_get s _]

theorem canon_ID (s : Survey) : s.canon.ID = s.ID := canon_get s _

/-! ## Helper lemmas: trees and references -/

theorem addTree_entries (es : List Entry) :
    (addTree es).treeEntries
      = some (List.insertionSort (fun a b : Entry => strLe a.1 b.1) es) := by
  have h1 : (addTree es).treeEntries
      = some (Entries.ofList
          (List.insertionSort (fun a b : Entry => strLe a.1 b.1) es)).toList := rfl
  rw [h1, Entries.toList_ofList_ent]

theorem find?_addTree {es : List Entry} (hn : (es.map Prod.fst).Nodup) (k : String) :
    (List.insertionSort (fun a b : Entry => strLe a.1 b.1) es).find?
        (fun e => e.1 == k)
      = es.find? (fun e => e.1 == k) :=
  find?_key_perm Prod.fst (List.perm_insertionSort _ es) (by
    have hperm := List.perm_insertionSort (fun a b : Entry => strLe a.1 b.1) es
    exact ((hperm.map Prod.fst).nodup_iff).mpr hn) k

theorem lookupRef_isSome_iff {refs : List (List Nat × Hash)} {k : List Nat} :
    (lookupRef refs k).isSome = true ↔ ∃ p ∈ refs, p.1 = k := by
  unfold lookupRef
  cases hf : refs.find? (fun p => p.1 == k) with
  | some p =>
    simp only [Option.isSome_some, true_iff]
    exact ⟨p, List.mem_of_find?_eq_some hf, by simpa using List.find?_some hf⟩
  | none =>
    rw [List.find?_eq_none] at hf
    simp only [Option.isSome_none]
    constructor
    · intro h; cases h
    · rintro ⟨p, hp, he⟩
      exact absurd (by simpa using he) (hf p hp)

theorem lookupRef_mem {refs : List (List Nat × Hash)} {k : List Nat} {h : Hash}
    (hl : lookupRef refs k = some h) : (k, h) ∈ refs := by
  unfold lookupRef at hl
  cases hf : refs.find? (fun p => p.1 == k) with
  | some p =>
    rw [hf] at hl
    have h1 : p ∈ refs := List.mem_of_find?_eq_some hf
    have h2 : p.1 = k := by simpa using List.find?_some hf
    have h3 : p.2 = h := by injection hl
    rw [← h2, ← h3]
    exact h1
  | none => rw [hf] at hl; cases hl

theorem mem_setRef {refs : List (List Nat × Hash)} {k : List Nat} {v : Hash}
    {p : List Nat × Hash} (hp : p ∈ setRef refs k v) : p = (k, v) ∨ p ∈ refs := by
  induction refs with
  | nil =>
    unfold setRef at hp
    simp only [List.mem_singleton] at hp
    exact Or.inl hp
  | cons q rest ih =>
    unfold setRef at hp
    by_cases hq : (q.1 == k) = true
    · rw [if_pos hq] at hp
      rcases List.mem_cons.mp hp with he | hm
      · exact Or.inl he
      · exact Or.inr (List.mem_cons_of_mem _ hm)
    · rw [if_neg hq] at hp
      rcases List.mem_cons.mp hp with he | hm
      · exact Or.inr (by rw [he]; exact List.mem_cons_self _ _)
      · rcases ih hm with h1 | h1
        · exact Or.inl h1
        · exact Or.inr (List.mem_cons_of_mem _ h1)

theorem mem_setRef_self (refs : List (List Nat × Hash)) (k : List Nat) (v : Hash) :
    (k, v) ∈ setRef refs k v := by
  induction refs with
  | nil => unfold setRef; exact List.mem_singleton.mpr rfl
  | cons q rest ih =>
    unfold setRef
    by_cases hq : (q.1 == k) = true
    · rw [if_pos hq]; exact List.mem_cons_self _ _
    · rw [if_neg hq]; exact List.mem_cons_of_mem _ ih

theorem mem_setRef_of_ne {refs : List (List Nat × Hash)} {k2 : List Nat} {v : Hash}
    {p : List Nat × Hash} (hp : p ∈ refs) (hne : p.1 ≠ k2) :
    p ∈ setRef refs k2 v := by
  induction refs with
  | nil => cases hp
  | cons q rest ih =>
    unfold setRef
    by_cases hq : (q.1 == k2) = true
    · rw [if_pos hq]
      rcases List.mem_cons.mp hp with he | hm
      · exact absurd (by rw [he]; simpa using hq) hne
      · exact List.mem_cons_of_mem _ hm
    · rw [if_neg hq]
      rcases List.mem_cons.mp hp with he | hm
      · rw [he]; exact List.mem_cons_self _ _
      · exact List.mem_cons_of_mem _ (ih hm)

theorem lookupRef_setRef_mono {refs : List (List Nat × Hash)} {k k2 : List Nat}
    {v : Hash} (hs : (lookupRef refs k).isSome = true) :
    (lookupRef (setRef refs k2 v) k).isSome = true := by
  rw [lookupRef_isSome_iff] at hs ⊢
  obtain ⟨p, hp, he⟩ := hs
  by_cases hk : k = k2
  · exact ⟨(k2, v), mem_setRef_self refs k2 v, by rw [hk]⟩
  · exact ⟨p, mem_setRef_of_ne hp (by rw [he]; exact hk), he⟩


/-! ## Helper lemmas: commits and WriteTrench -/

theorem commit_spec {b : Backend} {now : Nat} {u d m : String} {t c : Hash}
    {b' : Backend} (h : b.commit now u d m t = .ok (c, b')) :
    b'.refs = b.refs ∧ b'.readOnly = b.readOnly ∧ b'.user = b.user ∧
    b'.trench = b.trench ∧ b'.head = some c ∧ c ∈ b'.objs ∧
    (∃ cd, c.commitData = some cd ∧ cd.treeH = t) ∧
    ((b' = b ∧ c ∈ b.objs) ∨
      (b'.objs = c :: b.objs ∧
        ∀ cd, c.commitData = some cd → ∀ p ∈ cd.parents, p ∈ b.objs)) := by
  unfold Backend.commit at h
  split at h
  case h_2 =>
    injection h with h2
    injection h2 with hc hb
    subst hc
    subst hb
    refine ⟨rfl, rfl, rfl, rfl, rfl, List.mem_cons_self _ _, ⟨_, rfl, rfl⟩, ?_⟩
    refine Or.inr ⟨rfl, ?_⟩
    intro cd hcd p hp
    simp only [Hash.commitData] at hcd
    injection hcd with hcd2
    rw [← hcd2] at hp
    simp [Parents.toList] at hp
  case h_1 hh2 hh =>
    split at h
    case h_1 => cases h
    case h_2 cd hco =>
      have hmem : hh2 ∈ b.objs ∧ hh2.commitData = some cd := by
        unfold Backend.commitObject at hco
        by_cases hm : hh2 ∈ b.objs
        · rw [if_pos hm] at hco; exact ⟨hm, hco⟩
        · rw [if_neg hm] at hco; cases hco
      by_cases he : cd.treeH = t
      · rw [if_pos he] at h
        injection h with h2
        injection h2 with hc hb
        subst hc
        subst hb
        exact ⟨rfl, rfl, rfl, rfl, hh, hmem.1, ⟨cd, hmem.2, he⟩,
          Or.inl ⟨rfl, hmem.1⟩⟩
      · rw [if_neg he] at h
        injection h with h2
        injection h2 with hc hb
        subst hc
        subst hb
        refine ⟨rfl, rfl, rfl, rfl, rfl, List.mem_cons_self _ _, ⟨_, rfl, rfl⟩, ?_⟩
        refine Or.inr ⟨rfl, ?_⟩
        intro cd2 hcd p hp
        simp only [Hash.commitData] at hcd
        injection hcd with hcd2
        rw [← hcd2] at hp
        simp only [Parents.toList, List.mem_cons, List.not_mem_nil, or_false] at hp
        rw [hp]
        exact hmem.1

theorem commit_noop {b : Backend} {hh : Hash} {cd : CommitData}
    (hhead : b.head = some hh) (hco : b.commitObject hh = some cd)
    {t : Hash} (ht : cd.treeH = t) (now : Nat) (u d m : String) :
    b.commit now u d m t = .ok (hh, b) := by
  unfold Backend.commit
  split
  case h_2 hnone => rw [hhead] at hnone; cases hnone
  case h_1 hh2 hheq =>
    rw [hhead] at hheq
    injection hheq with hhe
    subst hhe
    split
    · rename_i hx
      rw [hco] at hx; cases hx
    · rename_i cd2 hx
      rw [hco] at hx
      injection hx with he
      subst he
      rw [if_pos ht]


theorem attEntriesOf_ok_iff {refs : List (List Nat × Hash)} {l : List Attachment} :
    (∃ ae, attEntriesOf refs l = .ok ae) ↔
      ∀ a ∈ l, (lookupRef refs (Backend.attachmentReference a.name a.checksum)).isSome
        = true := by
  induction l with
  | nil => simp [attEntriesOf]
  | cons a rest ih =>
    unfold attEntriesOf
    cases hl : lookupRef refs (Backend.attachmentReference a.name a.checksum) with
    | none =>
      simp only [List.mem_cons]
      constructor
      · rintro ⟨ae, hae⟩; cases hae
      · intro hall
        have := hall a (Or.inl rfl)
        rw [hl] at this
        cases this
    | some h =>
      constructor
      · rintro ⟨ae, hae⟩ x hx
        rcases List.mem_cons.mp hx with he | hm
        · rw [he, hl]; rfl
        · cases hrest : attEntriesOf refs rest with
          | ok ae2 => exact (ih.mp ⟨ae2, hrest⟩) x hm
          | error e => rw [hrest] at hae; cases hae
      · intro hall
        obtain ⟨ae2, hae2⟩ := ih.mpr (fun x hx => hall x (List.mem_cons_of_mem _ hx))
        exact ⟨(a.name, Mode.regular, h) :: ae2, by rw [hae2]; rfl⟩

theorem attEntriesOf_ok_val {refs : List (List Nat × Hash)} {l : List Attachment}
    {ae : List Entry} (h : attEntriesOf refs l = .ok ae) :
    ae = l.filterMap fun a =>
      (lookupRef refs (Backend.attachmentReference a.name a.checksum)).map
        (fun hh => (a.name, Mode.regular, hh)) := by
  induction l generalizing ae with
  | nil =>
    unfold attEntriesOf at h
    injection h with h2
    rw [← h2]
    rfl
  | cons a rest ih =>
    unfold attEntriesOf at h
    cases hl : lookupRef refs (Backend.attachmentReference a.name a.checksum) with
    | none => rw [hl] at h; cases h
    | some hh =>
      rw [hl] at h
      cases hrest : attEntriesOf refs rest with
      | error e => rw [hrest] at h; cases h
      | ok ae2 =>
        rw [hrest] at h
        injection h with h2
        rw [← h2, List.filterMap_cons, hl, ih hrest]
        rfl

theorem collectEntries_ok_iff {refs : List (List Nat × Hash)} {ss : List Survey} :
    (∃ v, collectEntries refs ss = .ok v) ↔
      ∀ s ∈ ss, ∀ a ∈ s.Attachments,
        (lookupRef refs (Backend.attachmentReference a.name a.checksum)).isSome
          = true := by
  induction ss with
  | nil => simp [collectEntries]
  | cons s rest ih =>
    unfold collectEntries
    cases hae : attEntriesOf refs s.Attachments with
    | error e =>
      simp only [List.mem_cons]
      constructor
      · rintro ⟨v, hv⟩; cases hv
      · intro hall
        have : ∃ ae, attEntriesOf refs s.Attachments = .ok ae :=
          attEntriesOf_ok_iff.mpr (fun a ha => hall s (Or.inl rfl) a ha)
        obtain ⟨ae, hae2⟩ := this
        rw [hae] at hae2
        cases hae2
    | ok ae =>
      constructor
      · rintro ⟨v, hv⟩ x hx a ha
        rcases List.mem_cons.mp hx with he | hm
        · subst he
          exact attEntriesOf_ok_iff.mp ⟨ae, hae⟩ a ha
        · cases hrest : collectEntries refs rest with
          | ok v2 => exact ih.mp ⟨v2, hrest⟩ x hm a ha
          | error e => rw [hrest] at hv; cases hv
      · intro hall
        obtain ⟨v2, hv2⟩ := ih.mpr (fun x hx a ha => hall x (List.mem_cons_of_mem _ hx) a ha)
        exact ⟨(surveyEntry s :: v2.1, ae ++ v2.2), by rw [hv2]; rfl⟩

theorem collectEntries_ok_val {refs : List (List Nat × Hash)} {ss : List Survey}
    {ses aes : List Entry} (h : collectEntries refs ss = .ok (ses, aes)) :
    ses = ss.map surveyEntry ∧
      aes = ss.flatMap (fun s =>
        s.Attachments.filterMap fun a =>
          (lookupRef refs (Backend.attachmentReference a.name a.checksum)).map
            (fun hh => (a.name, Mode.regular, hh))) := by
  induction ss generalizing ses aes with
  | nil =>
    unfold collectEntries at h
    injection h with h2
    injection h2 with h3 h4
    rw [← h3, ← h4]
    exact ⟨rfl, rfl⟩
  | cons s rest ih =>
    unfold collectEntries at h
    cases hae : attEntriesOf refs s.Attachments with
    | error e => rw [hae] at h; cases h
    | ok ae =>
      rw [hae] at h
      cases hrest : collectEntries refs rest with
      | error e => rw [hrest] at h; cases h
      | ok v2 =>
        rw [hrest] at h
        injection h with h2
        injection h2 with h3 h4
        obtain ⟨ih1, ih2⟩ := @ih v2.1 v2.2 (by rw [hrest])
        constructor
        · rw [← h3, List.map_cons, ih1]
        · rw [← h4, List.flatMap_cons, ih2, attEntriesOf_ok_val hae]

theorem WriteTrench_eq {b : Backend} (hro : b.readOnly = false) {now : Nat}
    {d m : String} {p : GBytes} {ss : List Survey} {ses aes : List Entry}
    (hc : collectEntries b.refs ss = .ok (ses, aes)) :
    b.WriteTrench now d m p ss = b.commit now b.user d m (writeRootTree p ses aes) := by
  unfold Backend.WriteTrench
  rw [if_neg (by rw [hro]; exact Bool.false_ne_true), hc]
  rfl


/-! ## Helper lemmas: staging references and the missing set -/

theorem lookupRef_setRef_self (refs : List (List Nat × Hash)) (k : List Nat)
    (v : Hash) : lookupRef (setRef refs k v) k = some v := by
  induction refs with
  | nil => simp [setRef, lookupRef, List.find?]
  | cons q rest ih =>
    unfold setRef
    by_cases hq : (q.1 == k) = true
    · rw [if_pos hq]
      simp [lookupRef, List.find?]
    · rw [if_neg hq]
      unfold lookupRef
      rw [List.find?]
      simp only [hq]
      exact ih

theorem lookupRef_setRef_ne {k k2 : List Nat} (hne : k2 ≠ k)
    (refs : List (List Nat × Hash)) (v : Hash) :
    lookupRef (setRef refs k v) k2 = lookupRef refs k2 := by
  have h1 : ((k, v).1 == k2) = false := by
    rw [beq_eq_false_iff_ne]
    intro he
    exact hne he.symm
  induction refs with
  | nil => simp [setRef, lookupRef, List.find?, h1]
  | cons q rest ih =>
    unfold setRef
    by_cases hq : (q.1 == k) = true
    · rw [if_pos hq]
      unfold lookupRef
      rw [List.find?, List.find?]
      have h2 : (q.1 == k2) = false := by
        rw [beq_eq_false_iff_ne]
        rw [beq_iff_eq] at hq
        rw [hq]
        intro he
        exact hne he.symm
      simp only [h1, h2]
    · rw [if_neg hq]
      unfold lookupRef
      rw [List.find?, List.find?]
      by_cases hq2 : (q.1 == k2) = true
      · simp only [hq2]
      · simp only [hq2]
        exact ih

theorem attachmentReference_inj {n1 c1 n2 c2 : String}
    (h : Backend.attachmentReference n1 c1 = Backend.attachmentReference n2 c2) :
    n1 ++ "/" ++ c1 = n2 ++ "/" ++ c2 := by
  unfold Backend.attachmentReference at h
  have h2 := List.append_cancel_left h
  have h3 := b64encode_injective (fun b hb => utf8List_mem_lt hb)
    (fun b hb => utf8List_mem_lt hb) h2
  exact utf8Bytes_injective h3

theorem SSet.mem_insert {s : SSet} {k x : String} :
    x ∈ s.insert k ↔ x ∈ s ∨ x = k := by
  unfold SSet.insert
  by_cases hk : k ∈ s
  · rw [if_pos hk]
    constructor
    · exact Or.inl
    · rintro (h | h)
      · exact h
      · rw [h]; exact hk
  · rw [if_neg hk]
    simp

theorem SSet.insert_nodup {s : SSet} (hn : s.Nodup) (k : String) :
    (s.insert k).Nodup := by
  unfold SSet.insert
  by_cases hk : k ∈ s
  · rw [if_pos hk]; exact hn
  · rw [if_neg hk]
    exact hn.append (List.nodup_singleton k) (by
      intro x hx hm
      rw [List.mem_singleton] at hm
      rw [hm] at hx
      exact hk hx)

theorem mem_missingSet_inner {b : Backend} (atts : List Attachment) (acc : SSet)
    (x : String) :
    x ∈ atts.foldl
        (fun acc2 a =>
          if b.ExistsAttachment a.name a.checksum then acc2 else acc2.insert a.name)
        acc
      ↔ x ∈ acc ∨ ∃ a ∈ atts, a.name = x ∧
          b.ExistsAttachment a.name a.checksum = false := by
  induction atts generalizing acc with
  | nil => simp
  | cons a rest ih =>
    rw [List.foldl_cons]
    by_cases hex : b.ExistsAttachment a.name a.checksum = true
    · rw [if_pos hex, ih]
      constructor
      · rintro (h | h)
        · exact Or.inl h
        · exact Or.inr (by
            obtain ⟨a2, ha2, he⟩ := h
            exact ⟨a2, List.mem_cons_of_mem _ ha2, he⟩)
      · rintro (h | ⟨a2, ha2, he, hf⟩)
        · exact Or.inl h
        · rcases List.mem_cons.mp ha2 with hh | hh
          · rw [hh] at hf; rw [hex] at hf; cases hf
          · exact Or.inr ⟨a2, hh, he, hf⟩
    · rw [if_neg hex, ih, SSet.mem_insert]
      have hexf : b.ExistsAttachment a.name a.checksum = false := by
        cases hc : b.ExistsAttachment a.name a.checksum
        · rfl
        · exact absurd hc hex
      constructor
      · rintro ((h | h) | h)
        · exact Or.inl h
        · exact Or.inr ⟨a, List.mem_cons_self _ _, h.symm, hexf⟩
        · obtain ⟨a2, ha2, he⟩ := h
          exact Or.inr ⟨a2, List.mem_cons_of_mem _ ha2, he⟩
      · rintro (h | ⟨a2, ha2, he, hf⟩)
        · exact Or.inl (Or.inl h)
        · rcases List.mem_cons.mp ha2 with hh | hh
          · exact Or.inl (Or.inr (by rw [← he, hh]))
          · exact Or.inr ⟨a2, hh, he, hf⟩

theorem mem_missingSet {b : Backend} {ss : List Survey} {x : String} :
    x ∈ missingSet b ss ↔ ∃ s ∈ ss, ∃ a ∈ s.Attachments, a.name = x ∧
      b.ExistsAttachment a.name a.checksum = false := by
  unfold missingSet
  have main : ∀ (l : List Survey) (acc : SSet),
      x ∈ l.foldl
          (fun acc s =>
            s.Attachments.foldl
              (fun acc2 a =>
                if b.ExistsAttachment a.name a.checksum then acc2
                else acc2.insert a.name)
              acc)
          acc
        ↔ x ∈ acc ∨ ∃ s ∈ l, ∃ a ∈ s.Attachments, a.name = x ∧
            b.ExistsAttachment a.name a.checksum = false := by
    intro l
    induction l with
    | nil => simp
    | cons s rest ih =>
      intro acc
      rw [List.foldl_cons, ih, mem_missingSet_inner]
      constructor
      · rintro ((h | h) | h)
        · exact Or.inl h
        · exact Or.inr (by
            obtain ⟨a, ha, he⟩ := h
            exact ⟨s, List.mem_cons_self _ _, a, ha, he⟩)
        · obtain ⟨s2, hs2, a, ha, he⟩ := h
          exact Or.inr ⟨s2, List.mem_cons_of_mem _ hs2, a, ha, he⟩
      · rintro (h | ⟨s2, hs2, a, ha, he⟩)
        · exact Or.inl (Or.inl h)
        · rcases List.mem_cons.mp hs2 with hh | hh
          · exact Or.inl (Or.inr ⟨a, by rw [← hh]; exact ha, he⟩)
          · exact Or.inr ⟨s2, hh, a, ha, he⟩
  rw [main ss []]
  simp

theorem missingSet_nodup (b : Backend) (ss : List Survey) :
    (missingSet b ss).Nodup := by
  unfold missingSet
  have inner : ∀ (atts : List Attachment) (acc : SSet), acc.Nodup →
      (atts.foldl
          (fun acc2 a =>
            if b.ExistsAttachment a.name a.checksum then acc2
            else acc2.insert a.name)
          acc).Nodup := by
    intro atts
    induction atts with
    | nil => intro acc h; exact h
    | cons a rest ih =>
      intro acc h
      rw [List.foldl_cons]
      by_cases hex : b.ExistsAttachment a.name a.checksum = true
      · rw [if_pos hex]; exact ih acc h
      · rw [if_neg hex]; exact ih _ (SSet.insert_nodup h a.name)
  have main : ∀ (l : List Survey) (acc : SSet), acc.Nodup →
      (l.foldl
          (fun acc s =>
            s.Attachments.foldl
              (fun acc2 a =>
                if b.ExistsAttachment a.name a.checksum then acc2
                else acc2.insert a.name)
              acc)
          acc).Nodup := by
    intro l
    induction l with
    | nil => intro acc h; exact h
    | cons s rest ih =>
      intro acc h
      rw [List.foldl_cons]
      exact ih _ (inner s.Attachments acc h)
  exact main ss [] List.nodup_nil

theorem missingSet_eq_nil {b : Backend} {ss : List Survey}
    (hall : ∀ s ∈ ss, ∀ a ∈ s.Attachments,
      b.ExistsAttachment a.name a.checksum = true) :
    missingSet b ss = [] := by
  rw [List.eq_nil_iff_forall_not_mem]
  intro x hx
  rw [mem_missingSet] at hx
  obtain ⟨s, hs, a, ha, _, hf⟩ := hx
  rw [hall s hs a ha] at hf
  cases hf


/-! ## Helper lemmas: the branches of SyncTrench -/

theorem sync_pull_eq {b : Backend} {H : Hash} {newS : List Survey} {newP : GBytes}
    (hh : b.head = some H) {req : SyncRequest} (hne : req.head ≠ some H)
    (hs : b.ReadSurveys = .ok newS) (hp : b.ReadPreferences = .ok newP)
    (now : Nat) :
    SyncTrench b now req =
      (.ok 200 ⟨"pull", some H,
        (if (b.ReadPreferencesAtVersionStr req.head).toOption.getD (GBytes.raw [])
            = newP
          then GBytes.raw [] else newP),
        [],
        diffSurveys ((b.ReadSurveysAtVersionStr req.head).toOption.getD []) newS⟩,
      b) := by
  unfold SyncTrench
  rw [dif_pos ⟨by rw [hh]; exact fun hc => Option.noConfusion hc,
    by rw [hh]; exact hne⟩]
  rw [hs, hp, hh]

theorem sync_readonly_eq {b : Backend} {req : SyncRequest}
    (hcond : ¬(b.head ≠ none ∧ req.head ≠ b.head)) (hro : b.readOnly = true)
    {srv : List Survey} {prefs : GBytes}
    (hs : b.ReadSurveys = .ok srv) (hp : b.ReadPreferences = .ok prefs)
    (now : Nat) :
    SyncTrench b now req =
      (.ok 200 ⟨(if (diffSurveys req.surveys srv).isEmpty then "ok" else "forbidden"),
        b.head,
        (if req.preferences = prefs then GBytes.raw [] else prefs),
        [],
        diffSurveys req.surveys srv⟩,
      b) := by
  unfold SyncTrench
  rw [dif_neg hcond, if_pos hro, hs, hp]

theorem sync_missing_eq {b : Backend} {req : SyncRequest}
    (hcond : ¬(b.head ≠ none ∧ req.head ≠ b.head)) (hro : b.readOnly = false)
    (hmiss : missingSet b req.surveys ≠ []) (now : Nat) :
    SyncTrench b now req =
      (.ok 200 ⟨"missing", b.head, GBytes.raw [],
        (missingSet b req.surveys).array, []⟩, b) := by
  unfold SyncTrench
  rw [dif_neg hcond, if_neg (by rw [hro]; exact Bool.false_ne_true)]
  rw [if_neg (by
    intro he
    exact hmiss (by rwa [List.isEmpty_iff] at he))]

theorem sync_write_eq {b : Backend} {req : SyncRequest}
    (hcond : ¬(b.head ≠ none ∧ req.head ≠ b.head)) (hro : b.readOnly = false)
    (hmiss : missingSet b req.surveys = []) {h1 : Hash} {b1 : Backend}
    {now : Nat}
    (hw : b.WriteTrench now req.device req.message req.preferences req.surveys
      = .ok (h1, b1)) :
    SyncTrench b now req =
      (.ok 200 ⟨(if some h1 ≠ b.head then "pushed" else "ok"), some h1,
        GBytes.raw [], [], []⟩, b1) := by
  unfold SyncTrench
  rw [dif_neg hcond, if_neg (by rw [hro]; exact Bool.false_ne_true)]
  rw [if_pos (by rw [hmiss]; rfl), hw]

theorem sync_status_pull_cond {b : Backend} {now : Nat} {req : SyncRequest}
    (hst : (SyncTrench b now req).1.status = some "pull") :
    b.head ≠ none ∧ req.head ≠ b.head := by
  by_cases hcond : b.head ≠ none ∧ req.head ≠ b.head
  · exact hcond
  · exfalso
    unfold SyncTrench at hst
    rw [dif_neg hcond] at hst
    by_cases hro : b.readOnly = true
    · rw [if_pos hro] at hst
      cases hs : b.ReadSurveys with
      | error e => rw [hs] at hst; simp [HResult.status] at hst
      | ok srv =>
        rw [hs] at hst
        cases hp : b.ReadPreferences with
        | error e => rw [hp] at hst; simp [HResult.status] at hst
        | ok prefs =>
          rw [hp] at hst
          simp only [HResult.status] at hst
          by_cases hemp : (diffSurveys req.surveys srv).isEmpty
          · rw [if_pos hemp] at hst
            exact absurd (by injection hst) (by decide : ¬("ok" = "pull"))
          · rw [if_neg hemp] at hst
            exact absurd (by injection hst) (by decide : ¬("forbidden" = "pull"))
    · rw [if_neg hro] at hst
      by_cases hmiss : (missingSet b req.surveys).isEmpty
      · rw [if_pos hmiss] at hst
        cases hw : b.WriteTrench now req.device req.message req.preferences
            req.surveys with
        | error e => rw [hw] at hst; simp [HResult.status] at hst
        | ok v =>
          rw [hw] at hst
          simp only [HResult.status] at hst
          by_cases hne : some v.1 ≠ b.head
          · rw [if_pos hne] at hst
            exact absurd (by injection hst) (by decide : ¬("pushed" = "pull"))
          · rw [if_neg hne] at hst
            exact absurd (by injection hst) (by decide : ¬("ok" = "pull"))
      · rw [if_neg hmiss] at hst
        simp only [HResult.status] at hst
        exact absurd (by injection hst) (by decide : ¬("missing" = "pull"))


/-! ## Claim C6 (corrected) -/

/-- C6, amended: in read-only mode the write entry points `WriteTrench`,
`WriteAttachment` and `WritePreferences` fail with `Forbidden` and leave the
trench state unchanged (they return before touching anything); `Rollback`
performs no read-only check: whenever the version and the head resolve it
proceeds and can create a commit even in read-only mode. -/
theorem readonly_write_guards (b : Backend) (hro : b.readOnly = true) (now : Nat)
    (d m n c : String) (p dat : GBytes) (ss : List Survey) (v : Hash) :
    b.WriteTrench now d m p ss = .error "Forbidden" ∧
    b.WriteAttachment n c dat = .error "Forbidden" ∧
    b.WritePreferences now p = .error "Forbidden" ∧
    ∀ cd es, b.commitObject v = some cd → cd.treeH.treeEntries = some es →
      (∀ H, b.head = some H → (b.commitObject H).isSome = true) →
      ∃ b', b.Rollback now v = .ok b' := by
  refine ⟨?_, ?_, ?_, ?_⟩
  · unfold Backend.WriteTrench
    rw [if_pos hro]
  · unfold Backend.WriteAttachment
    rw [if_pos hro]
  · unfold Backend.WritePreferences
    rw [if_pos hro]
  · intro cd es hcd hes hhead
    have hcommit : ∃ r, b.commit now b.user "terminal" "Rollback" cd.treeH
        = .ok r := by
      unfold Backend.commit
      cases hh : b.head with
      | none =>
        simp only [hh]
        exact ⟨_, rfl⟩
      | some H =>
        simp only [hh]
        have hs := hhead H hh
        cases hco : b.commitObject H with
        | none => rw [hco] at hs; cases hs
        | some cd2 =>
          simp only [hco]
          by_cases ht : cd2.treeH = cd.treeH
          · rw [if_pos ht]
            exact ⟨_, rfl⟩
          · rw [if_neg ht]
            exact ⟨_, rfl⟩
    obtain ⟨⟨h2, b2⟩, hc⟩ := hcommit
    refine ⟨b2, ?_⟩
    unfold Backend.Rollback
    simp only [hcd, hes, hc]
    rfl

def c6t1 : Hash := .tree .nil
def c6t2 : Hash := .tree (.cons "x" .regular (.blob (.raw [])) .nil)
def c6c1 : Hash := .commit "d" "u" 0 "m" c6t1 .nil
def c6c2 : Hash := .commit "d" "u" 1 "m" c6t2 (.cons c6c1 .nil)
def c6b : Backend := ⟨"u", "T", true, some c6c2, [c6c2, c6c1], []⟩
def c6rb : Hash := .commit "terminal" "u" 5 "Rollback" c6t1 (.cons c6c2 .nil)
def c6b2 : Backend := ⟨"u", "T", true, some c6rb, [c6rb, c6c2, c6c1], []⟩

/-- C6, counterexample: on a read-only backend with two commits, `Rollback`
to the first commit does not fail with `Forbidden`; it succeeds and moves the
head, mutating the trench state. -/
theorem readonly_rollback_not_guarded :
    c6b.readOnly = true ∧ c6b.Rollback 5 c6c1 = .ok c6b2 ∧
      c6b2.head ≠ c6b.head := by decide

/-- C6, witness for the amended theorem: a concrete read-only backend on
which all three guarded entry points return `Forbidden` and `Rollback`
succeeds. -/
theorem readonly_write_guards_witness :
    c6b.WriteTrench 5 "d" "m" (GBytes.raw []) [] = .error "Forbidden" ∧
    c6b.WriteAttachment "n" "c" (GBytes.raw []) = .error "Forbidden" ∧
    c6b.WritePreferences 5 (GBytes.raw []) = .error "Forbidden" ∧
    ∃ b', c6b.Rollback 5 c6c1 = .ok b' := by
  obtain ⟨h1, h2, h3, h4⟩ := readonly_write_guards c6b (by decide) 5
    "d" "m" "n" "c" (GBytes.raw []) (GBytes.raw []) [] c6c1
  exact ⟨h1, h2, h3, h4 ⟨"d", "u", 0, "m", c6t1, []⟩ [] (by decide) (by decide)
    (by decide)⟩

/-! ## Claim C8 (corrected) -/

/-- C8, amended: after a successful `WriteAttachment(n, c, d)`,
`ExistsAttachment(n, c)` is true and `ReadAttachment(n, c)` returns exactly
`d`; the staging reference is `refs/attachments/enc(n + "/" + c)` with `enc`
an unpadded URL-safe base64 encoding, so two `(name, checksum)` pairs stage
independently exactly when their joined strings `name + "/" + checksum`
differ (pairs with equal joined strings, possible when a name or checksum
contains `/`, share one reference). -/
theorem writeAttachment_roundtrip (b : Backend) (hro : b.readOnly = false)
    (n c : String) (d : GBytes) :
    ∃ b', b.WriteAttachment n c d = .ok b' ∧
      b'.ExistsAttachment n c = true ∧
      b'.ReadAttachment n c = .ok d ∧
      ∀ n2 c2, n2 ++ "/" ++ c2 ≠ n ++ "/" ++ c →
        b'.ExistsAttachment n2 c2 = b.ExistsAttachment n2 c2 ∧
        b'.ReadAttachment n2 c2 = b.ReadAttachment n2 c2 := by
  refine ⟨{ b with
      refs := setRef b.refs (Backend.attachmentReference n c) (Hash.blob d) },
    ?_, ?_, ?_, ?_⟩
  · unfold Backend.WriteAttachment
    rw [if_neg (by rw [hro]; exact Bool.false_ne_true)]
  · unfold Backend.ExistsAttachment
    rw [lookupRef_setRef_self]
    rfl
  · unfold Backend.ReadAttachment
    rw [lookupRef_setRef_self]
    rfl
  · intro n2 c2 hne
    have hkne : Backend.attachmentReference n2 c2
        ≠ Backend.attachmentReference n c := by
      intro he
      exact hne (attachmentReference_inj he)
    constructor
    · unfold Backend.ExistsAttachment
      rw [lookupRef_setRef_ne hkne]
    · unfold Backend.ReadAttachment
      rw [lookupRef_setRef_ne hkne]

/-- C8, witness: a concrete write followed by the reads and an independent
pair. -/
theorem writeAttachment_roundtrip_witness :
    ∃ b', (NewMemoryBackend "u" "T").WriteAttachment "p.jpg" "c1"
        (GBytes.raw [7]) = .ok b' ∧
      b'.ExistsAttachment "p.jpg" "c1" = true ∧
      b'.ReadAttachment "p.jpg" "c1" = .ok (GBytes.raw [7]) ∧
      ("q.jpg" ++ "/" ++ "c1" ≠ "p.jpg" ++ "/" ++ "c1" →
        b'.ExistsAttachment "q.jpg" "c1"
            = (NewMemoryBackend "u" "T").ExistsAttachment "q.jpg" "c1" ∧
          b'.ReadAttachment "q.jpg" "c1"
            = (NewMemoryBackend "u" "T").ReadAttachment "q.jpg" "c1") := by
  obtain ⟨b', h1, h2, h3, h4⟩ := writeAttachment_roundtrip
    (NewMemoryBackend "u" "T") (by decide) "p.jpg" "c1" (GBytes.raw [7])
  exact ⟨b', h1, h2, h3, h4 "q.jpg" "c1"⟩

def c8b1 : Backend := applyOp (NewMemoryBackend "u" "T")
  (.writeAttachment "a/b" "c" (GBytes.raw [1]))
def c8b2 : Backend := applyOp c8b1 (.writeAttachment "a" "b/c" (GBytes.raw [2]))

/-- C8, counterexample: the distinct pairs `("a/b", "c")` and `("a", "b/c")`
share one staging reference, so they do not stage independently: staging the
second overwrites the first's blob. -/
theorem attachment_pairs_not_independent :
    (("a/b", "c") ≠ (("a" : String), ("b/c" : String))) ∧
    Backend.attachmentReference "a/b" "c"
      = Backend.attachmentReference "a" "b/c" ∧
    c8b2.ReadAttachment "a/b" "c" = .ok (GBytes.raw [2]) := by decide


/-! ## Claim C4 -/

theorem WriteTrench_ok_not_readonly {b : Backend} {now : Nat} {d m : String}
    {p : GBytes} {ss : List Survey} {r : Hash × Backend}
    (hw : b.WriteTrench now d m p ss = .ok r) : b.readOnly = false := by
  unfold Backend.WriteTrench at hw
  cases hro : b.readOnly
  · rfl
  · rw [if_pos (by rw [hro])] at hw
    cases hw

theorem WriteTrench_ok_collect {b : Backend} {now : Nat} {d m : String}
    {p : GBytes} {ss : List Survey} {h1 : Hash} {b1 : Backend}
    (hw : b.WriteTrench now d m p ss = .ok (h1, b1)) :
    ∃ ses aes, collectEntries b.refs ss = .ok (ses, aes) ∧
      b.commit now b.user d m (writeRootTree p ses aes) = .ok (h1, b1) := by
  have hro := WriteTrench_ok_not_readonly hw
  unfold Backend.WriteTrench at hw
  rw [if_neg (by rw [hro]; exact Bool.false_ne_true)] at hw
  cases hcol : collectEntries b.refs ss with
  | error e => rw [hcol] at hw; cases hw
  | ok v =>
    obtain ⟨ses, aes⟩ := v
    rw [hcol] at hw
    exact ⟨ses, aes, rfl, hw⟩

/-- C4: committing a root tree identical to the parent commit's root tree
creates no new commit and leaves the head unchanged; consequently, a second
`WriteTrench` with the same surveys and preferences returns the same head and
leaves the state unchanged, and the corresponding sync request is answered
with status `ok` and `version = H` rather than `pushed`. -/
theorem commit_idempotent_sync_ok :
    (∀ (b : Backend) (hh : Hash) (cd : CommitData) (t : Hash) (now : Nat)
      (u d m : String),
      b.head = some hh → b.commitObject hh = some cd → cd.treeH = t →
      b.commit now u d m t = .ok (hh, b)) ∧
    (∀ (b : Backend) (now1 : Nat) (d m : String) (p : GBytes)
      (ss : List Survey) (h1 : Hash) (b1 : Backend),
      b.WriteTrench now1 d m p ss = .ok (h1, b1) →
      (∀ now2 d2 m2, b1.WriteTrench now2 d2 m2 p ss = .ok (h1, b1)) ∧
      (∀ now2 (req : SyncRequest), req.head = some h1 → req.preferences = p →
        req.surveys = ss →
        SyncTrench b1 now2 req
          = (.ok 200 ⟨"ok", some h1, GBytes.raw [], [], []⟩, b1))) := by
  constructor
  · intro b hh cd t now u d m hhead hco ht
    exact commit_noop hhead hco ht now u d m
  · intro b now1 d m p ss h1 b1 hw
    obtain ⟨ses, aes, hcol, hcommit⟩ := WriteTrench_ok_collect hw
    obtain ⟨hrefs, hro1, huser, -, hhead1, hmem1, ⟨cd, hcd, htree⟩, -⟩ :=
      commit_spec hcommit
    have hrofalse : b1.readOnly = false := by
      rw [hro1]; exact WriteTrench_ok_not_readonly hw
    have hco1 : b1.commitObject h1 = some cd := by
      unfold Backend.commitObject
      rw [if_pos hmem1, hcd]
    have hsecond : ∀ now2 d2 m2,
        b1.WriteTrench now2 d2 m2 p ss = .ok (h1, b1) := by
      intro now2 d2 m2
      rw [WriteTrench_eq hrofalse (by rw [hrefs]; exact hcol)]
      exact commit_noop hhead1 hco1 htree now2 b1.user d2 m2
    refine ⟨hsecond, ?_⟩
    intro now2 req hrh hrp hrs
    have hstaged : ∀ s ∈ ss, ∀ a ∈ s.Attachments,
        b1.ExistsAttachment a.name a.checksum = true := by
      intro s hs a ha
      unfold Backend.ExistsAttachment
      rw [hrefs]
      exact collectEntries_ok_iff.mp ⟨(ses, aes), hcol⟩ s hs a ha
    have hmiss : missingSet b1 req.surveys = [] := by
      rw [hrs]
      exact missingSet_eq_nil hstaged
    have hcond : ¬(b1.head ≠ none ∧ req.head ≠ b1.head) := by
      rintro ⟨-, hne⟩
      rw [hrh, hhead1] at hne
      exact hne rfl
    have hw2 : b1.WriteTrench now2 req.device req.message req.preferences
        req.surveys = .ok (h1, b1) := by
      rw [hrp, hrs]
      exact hsecond now2 req.device req.message
    rw [sync_write_eq hcond hrofalse hmiss hw2]
    rw [if_neg (by rw [hhead1]; intro hne; exact hne rfl)]

def c4s : Survey := [("IdentifierUUID", "A1"), ("RelationAttachments", "n=p\nd=c")]
def c4b0 : Backend := applyOp (NewMemoryBackend "u" "T")
  (.writeAttachment "p" "c" (GBytes.raw [9]))
def c4res : Except String (Hash × Backend) :=
  c4b0.WriteTrench 5 "d" "m" (GBytes.raw [1]) [c4s]
def c4h1 : Hash := match c4res with | .ok (h, _) => h | .error _ => Hash.blob (.raw [])
def c4b1 : Backend := match c4res with | .ok (_, b) => b | .error _ => c4b0
def c4req : SyncRequest := ⟨"d2", "m2", some c4h1, GBytes.raw [1], [c4s]⟩

/-- C4, witness: a concrete push whose repetition returns the same head and
whose re-sync is answered `ok` at the same version. -/
theorem commit_idempotent_sync_ok_witness :
    c4b1.WriteTrench 9 "d3" "m3" (GBytes.raw [1]) [c4s] = .ok (c4h1, c4b1) ∧
    SyncTrench c4b1 9 c4req
      = (.ok 200 ⟨"ok", some c4h1, GBytes.raw [], [], []⟩, c4b1) := by
  have h := commit_idempotent_sync_ok.2 c4b0 5 "d" "m" (GBytes.raw [1]) [c4s]
    c4h1 c4b1 (by decide)
  exact ⟨h.1 9 "d3" "m3", h.2 9 c4req (by decide) (by decide) (by decide)⟩


/-! ## Claim C3 -/

/-- C3: on a write-permitted sync whose base is current (head empty or equal
to the client's), if some referenced attachment is unstaged the response is
status `missing` with `version = H` and the sorted, duplicate-free list of
the missing attachment names, and the backend state (in particular the head)
is unchanged. -/
theorem sync_missing (b : Backend) (now : Nat) (req : SyncRequest)
    (hro : b.readOnly = false)
    (hbase : b.head = none ∨ req.head = b.head)
    (hmiss : ∃ s ∈ req.surveys, ∃ a ∈ s.Attachments,
      b.ExistsAttachment a.name a.checksum = false) :
    SyncTrench b now req
      = (.ok 200 ⟨"missing", b.head, GBytes.raw [],
          (missingSet b req.surveys).array, []⟩, b) ∧
    List.Sorted strLe (missingSet b req.surveys).array ∧
    ((missingSet b req.surveys).array).Nodup ∧
    ∀ x, x ∈ (missingSet b req.surveys).array ↔
      ∃ s ∈ req.surveys, ∃ a ∈ s.Attachments, a.name = x ∧
        b.ExistsAttachment a.name a.checksum = false := by
  have hcond : ¬(b.head ≠ none ∧ req.head ≠ b.head) := by
    rintro ⟨h1, h2⟩
    rcases hbase with h | h
    · exact h1 h
    · exact h2 h
  have hne : missingSet b req.surveys ≠ [] := by
    obtain ⟨s, hs, a, ha, hf⟩ := hmiss
    intro he
    have : a.name ∈ missingSet b req.surveys :=
      mem_missingSet.mpr ⟨s, hs, a, ha, rfl, hf⟩
    rw [he] at this
    cases this
  refine ⟨sync_missing_eq hcond hro hne now, ?_, ?_, ?_⟩
  · exact List.sorted_insertionSort strLe _
  · exact ((List.perm_insertionSort strLe _).nodup_iff).mpr
      (missingSet_nodup b req.surveys)
  · intro x
    rw [SSet.array, List.mem_insertionSort, mem_missingSet]

def c3s : Survey := [("IdentifierUUID", "B1"),
  ("RelationAttachments", "n=p.jpg\nd=c1\n\nn=a.png\nd=c2")]
def c3b : Backend := NewMemoryBackend "u" "T"
def c3req : SyncRequest := ⟨"d", "m", none, GBytes.raw [], [c3s]⟩

/-- C3, witness: a fresh trench receiving a survey with two unstaged
attachments answers `missing` with the sorted name list and an unchanged
state. -/
theorem sync_missing_witness :
    SyncTrench c3b 7 c3req
      = (.ok 200 ⟨"missing", c3b.head, GBytes.raw [],
          (missingSet c3b c3req.surveys).array, []⟩, c3b) ∧
    (missingSet c3b c3req.surveys).array = ["a.png", "p.jpg"] := by
  refine ⟨(sync_missing c3b 7 c3req (by decide) (Or.inl (by decide))
    ⟨c3s, by decide, ⟨"p.jpg", "c1"⟩, by decide, by decide⟩).1, by decide⟩


/-! ## Claim C2 (corrected) -/

/-- C2, amended: on a read-only sync that does not take the pull branch, the
status is `ok` exactly when `diff(client_surveys, surveys@H)` is empty —
regardless of whether the client preferences match the server's — and
`forbidden` otherwise, with the server-side patches as updates; in both cases
`version = H`, the server preferences are echoed only when they differ from
the client's, and the state is unchanged. -/
theorem sync_readonly_spec (b : Backend) (now : Nat) (req : SyncRequest)
    (hro : b.readOnly = true)
    (hbase : b.head = none ∨ req.head = b.head)
    {srv : List Survey} {prefs : GBytes}
    (hs : b.ReadSurveys = .ok srv) (hp : b.ReadPreferences = .ok prefs) :
    SyncTrench b now req
      = (.ok 200
          ⟨(if (diffSurveys req.surveys srv).isEmpty then "ok" else "forbidden"),
            b.head,
            (if req.preferences = prefs then GBytes.raw [] else prefs),
            [],
            diffSurveys req.surveys srv⟩,
        b) ∧
    ((SyncTrench b now req).1.status = some "ok"
      ↔ diffSurveys req.surveys srv = []) := by
  have hcond : ¬(b.head ≠ none ∧ req.head ≠ b.head) := by
    rintro ⟨h1, h2⟩
    rcases hbase with h | h
    · exact h1 h
    · exact h2 h
  have heq := sync_readonly_eq hcond hro hs hp now
  refine ⟨heq, ?_⟩
  rw [heq]
  by_cases hemp : (diffSurveys req.surveys srv).isEmpty
  · rw [if_pos hemp]
    simp only [HResult.status]
    constructor
    · intro _
      rwa [List.isEmpty_iff] at hemp
    · intro _
      trivial
  · rw [if_neg hemp]
    simp only [HResult.status]
    constructor
    · intro hfo
      injection hfo with hfo2
      exact absurd hfo2 (by decide)
    · intro he
      rw [he] at hemp
      exact absurd rfl hemp

def c2s : Survey := [("IdentifierUUID", "A1")]
def c2push : Except String (Hash × Backend) :=
  (NewMemoryBackend "u" "T").WriteTrench 3 "d" "m" (GBytes.raw [1]) [c2s]
def c2b1 : Backend :=
  match c2push with
  | .ok (_, b) => { b with readOnly := true }
  | .error _ => NewMemoryBackend "u" "T"
def c2req : SyncRequest := ⟨"d", "", c2b1.head, GBytes.raw [2], [c2s]⟩

/-- C2, counterexample: a read-only client whose surveys match the server but
whose preferences differ is answered with status `ok` (the code only checks
the patches), not `forbidden` as the claim requires. -/
theorem sync_readonly_ok_despite_pref_diff :
    c2b1.readOnly = true ∧
    c2req.head = c2b1.head ∧
    c2b1.ReadPreferences = .ok (GBytes.raw [1]) ∧
    c2req.preferences ≠ GBytes.raw [1] ∧
    (SyncTrench c2b1 9 c2req).1.status = some "ok" := by decide

/-- C2, witness for the amended theorem at a concrete read-only state. -/
theorem sync_readonly_spec_witness :
    SyncTrench c2b1 9 c2req
      = (.ok 200
          ⟨(if (diffSurveys c2req.surveys [Survey.canon c2s]).isEmpty then "ok"
              else "forbidden"),
            c2b1.head,
            (if c2req.preferences = GBytes.raw [1] then GBytes.raw []
              else GBytes.raw [1]),
            [],
            diffSurveys c2req.surveys [Survey.canon c2s]⟩,
        c2b1) ∧
    ((SyncTrench c2b1 9 c2req).1.status = some "ok"
      ↔ diffSurveys c2req.surveys [Survey.canon c2s] = []) :=
  sync_readonly_spec c2b1 9 c2req (by decide) (Or.inr (by decide))
    (by decide) (by decide)

/-! ## Claim C1 -/

/-- C1: the response status is `pull` exactly when the server head `H` is
non-empty and the client head differs from it (in particular an empty server
head never takes the pull branch); in that case the response carries
`version = H`, `updates = diff(surveys@client_head, surveys@H)` and the
server preferences only when they differ from those at `client_head`, with an
unresolvable client head treated as empty old surveys and old preferences. -/
theorem sync_pull_spec (b : Backend) (now : Nat) (req : SyncRequest)
    (hw : ∀ H, b.head = some H →
      (∃ srv, b.ReadSurveys = .ok srv) ∧
        (∃ prefs, b.ReadPreferences = .ok prefs)) :
    ((SyncTrench b now req).1.status = some "pull" ↔
      ∃ H, b.head = some H ∧ req.head ≠ some H) ∧
    (∀ H srv prefs, b.head = some H → req.head ≠ some H →
      b.ReadSurveys = .ok srv → b.ReadPreferences = .ok prefs →
      SyncTrench b now req
        = (.ok 200 ⟨"pull", some H,
            (if (b.ReadPreferencesAtVersionStr req.head).toOption.getD
                  (GBytes.raw []) = prefs
              then GBytes.raw [] else prefs),
            [],
            diffSurveys
              ((b.ReadSurveysAtVersionStr req.head).toOption.getD []) srv⟩,
          b)) ∧
    ((b.ReadSurveysAtVersionStr none).toOption.getD [] = [] ∧
      ∀ v, b.commitObject v = none →
        (b.ReadSurveysAtVersionStr (some v)).toOption.getD [] = [] ∧
        (b.ReadPreferencesAtVersionStr (some v)).toOption.getD (GBytes.raw [])
          = GBytes.raw []) := by
  refine ⟨?_, ?_, ?_, ?_⟩
  · constructor
    · intro hst
      obtain ⟨h1, h2⟩ := sync_status_pull_cond hst
      cases hh : b.head with
      | none => exact absurd hh h1
      | some H =>
        refine ⟨H, rfl, ?_⟩
        rw [hh] at h2
        exact h2
    · rintro ⟨H, hh, hne⟩
      obtain ⟨⟨srv, hs⟩, ⟨prefs, hp⟩⟩ := hw H hh
      rw [sync_pull_eq hh hne hs hp now]
      rfl
  · intro H srv prefs hh hne hs hp
    exact sync_pull_eq hh hne hs hp now
  · rfl
  · intro v hv
    constructor
    · unfold Backend.ReadSurveysAtVersionStr Backend.ReadSurveysAtVersion
      simp only [hv]
      rfl
    · unfold Backend.ReadPreferencesAtVersionStr Backend.ReadPreferencesAtVersion
      simp only [hv]
      rfl

def c1s : Survey := [("IdentifierUUID", "A1"), ("k", "v")]
def c1push : Except String (Hash × Backend) :=
  (NewMemoryBackend "u" "T").WriteTrench 3 "d" "m" (GBytes.raw [1]) [c1s]
def c1b1 : Backend :=
  match c1push with
  | .ok (_, b) => b
  | .error _ => NewMemoryBackend "u" "T"
def c1req : SyncRequest := ⟨"d2", "", none, GBytes.raw [], []⟩

/-- C1, witness: a second client with an empty head syncing against a
non-empty server is answered `pull`. -/
theorem sync_pull_spec_witness :
    (SyncTrench c1b1 9 c1req).1.status = some "pull" := by
  have h := sync_pull_spec c1b1 9 c1req (by
    intro H hH
    exact ⟨⟨[Survey.canon c1s], by decide⟩, ⟨GBytes.raw [1], by decide⟩⟩)
  apply h.1.mpr
  refine ⟨(Hash.commit "d" "u" 3 "m"
    (writeRootTree (GBytes.raw [1]) [surveyEntry c1s] []) Parents.nil), ?_, ?_⟩
  · decide
  · decide


/-! ## Claim C9 -/

theorem commit_new {b : Backend} {H : Hash} {cd : CommitData}
    (hhead : b.head = some H) (hco : b.commitObject H = some cd)
    {t : Hash} (ht : cd.treeH ≠ t) (now : Nat) (u d m : String) :
    b.commit now u d m t
      = .ok (Hash.commit d u now m t (.cons H .nil),
        { b with head := some (Hash.commit d u now m t (.cons H .nil)),
                 objs := Hash.commit d u now m t (.cons H .nil) :: b.objs }) := by
  unfold Backend.commit
  split
  case h_2 hnone => rw [hhead] at hnone; cases hnone
  case h_1 hh2 hheq =>
    rw [hhead] at hheq
    injection hheq with hhe
    subst hhe
    split
    · rename_i hx
      rw [hco] at hx; cases hx
    · rename_i cd2 hx
      rw [hco] at hx
      injection hx with he
      subst he
      rw [if_neg ht]

theorem commit_ok_of_head {b : Backend} {H : Hash} {cd : CommitData}
    (hh : b.head = some H) (hco : b.commitObject H = some cd)
    (now : Nat) (u d m : String) (t : Hash) :
    ∃ r, b.commit now u d m t = .ok r := by
  by_cases ht : cd.treeH = t
  · exact ⟨(H, b), commit_noop hh hco ht now u d m⟩
  · exact ⟨_, commit_new hh hco ht now u d m⟩

/-- C9: `WritePreferences` changes only `Preferences.json`: with a parent
commit present, the new head's root tree carries the parent's `surveys` and
`attachments` entries unchanged (same name, mode and hash), its
`Preferences.json` entry is the new blob, and `ReadSurveys` returns the same
result before and after the call. -/
theorem writePreferences_frame (b : Backend) (now : Nat) (p : GBytes)
    {H : Hash} {cd : CommitData} {root : List Entry} {ea es : Entry}
    (hro : b.readOnly = false)
    (hh : b.head = some H)
    (hco : b.commitObject H = some cd)
    (hroot : cd.treeH.treeEntries = some root)
    (hea : root.find? (fun e => e.1 == "attachments") = some ea)
    (hes : root.find? (fun e => e.1 == "surveys") = some es) :
    ∃ b' H' cd' root', b.WritePreferences now p = .ok b' ∧
      b'.head = some H' ∧ Hash.commitData H' = some cd' ∧
      cd'.treeH.treeEntries = some root' ∧
      root'.find? (fun e => e.1 == "attachments") = some ea ∧
      root'.find? (fun e => e.1 == "surveys") = some es ∧
      root'.find? (fun e => e.1 == "Preferences.json")
        = some ("Preferences.json", Mode.regular, Hash.blob p) ∧
      b'.ReadSurveys = b.ReadSurveys := by
  have hea1 : ea.1 = "attachments" := by simpa using List.find?_some hea
  have hes1 : es.1 = "surveys" := by simpa using List.find?_some hes
  obtain ⟨⟨h2, b2⟩, hc⟩ := commit_ok_of_head hh hco now b.user "terminal"
    "Import Preferences"
    (addTree [ea, es, ("Preferences.json", Mode.regular, Hash.blob p)])
  have hwp : b.WritePreferences now p = .ok b2 := by
    unfold Backend.WritePreferences
    rw [if_neg (by rw [hro]; exact Bool.false_ne_true)]
    simp only [hh, hco, hroot, hea, hes, hc]
    rfl
  obtain ⟨hrefs, -, -, -, hhead2, hmem2, ⟨cd2, hcd2, ht2⟩, -⟩ := commit_spec hc
  have hnodup : (([ea, es,
      (("Preferences.json" : String), Mode.regular, Hash.blob p)]).map
        Prod.fst).Nodup := by
    rw [List.map_cons, List.map_cons, List.map_cons, hea1, hes1]
    exact (by decide :
      ((["attachments", "surveys", "Preferences.json"] : List String)
        ++ List.map Prod.fst ([] : List Entry)).Nodup)
  have hroot2 : cd2.treeH.treeEntries
      = some (List.insertionSort (fun a b : Entry => strLe a.1 b.1)
          [ea, es, ("Preferences.json", Mode.regular, Hash.blob p)]) := by
    rw [ht2, addTree_entries]
  have hfa : (List.insertionSort (fun a b : Entry => strLe a.1 b.1)
      [ea, es, ("Preferences.json", Mode.regular, Hash.blob p)]).find?
        (fun e => e.1 == "attachments") = some ea := by
    rw [find?_addTree hnodup]
    rw [List.find?, show (ea.1 == "attachments") = true by rw [hea1]; rfl]
  have hfs : (List.insertionSort (fun a b : Entry => strLe a.1 b.1)
      [ea, es, ("Preferences.json", Mode.regular, Hash.blob p)]).find?
        (fun e => e.1 == "surveys") = some es := by
    rw [find?_addTree hnodup]
    rw [List.find?, show (ea.1 == "surveys") = false by rw [hea1]; rfl]
    rw [List.find?, show (es.1 == "surveys") = true by rw [hes1]; rfl]
  have hfp : (List.insertionSort (fun a b : Entry => strLe a.1 b.1)
      [ea, es, ("Preferences.json", Mode.regular, Hash.blob p)]).find?
        (fun e => e.1 == "Preferences.json")
      = some ("Preferences.json", Mode.regular, Hash.blob p) := by
    rw [find?_addTree hnodup]
    rw [List.find?, show (ea.1 == "Preferences.json") = false by rw [hea1]; rfl]
    rw [List.find?, show (es.1 == "Preferences.json") = false by rw [hes1]; rfl]
    rw [List.find?]
    rfl
  refine ⟨b2, h2, cd2, _, hwp, hhead2, hcd2, hroot2, hfa, hfs, hfp, ?_⟩
  have hco2 : b2.commitObject h2 = some cd2 := by
    unfold Backend.commitObject
    rw [if_pos hmem2, hcd2]
  have hleft : b2.ReadSurveys = (do
      let surv ← subTreeEntries (List.insertionSort
        (fun a b : Entry => strLe a.1 b.1)
        [ea, es, ("Preferences.json", Mode.regular, Hash.blob p)]) "surveys"
      readSurveyEntries surv) := by
    unfold Backend.ReadSurveys Backend.ReadSurveysAtVersion
    simp only [hhead2, hco2, hroot2]
  have hright : b.ReadSurveys = (do
      let surv ← subTreeEntries root "surveys"
      readSurveyEntries surv) := by
    unfold Backend.ReadSurveys Backend.ReadSurveysAtVersion
    simp only [hh, hco, hroot]
  rw [hleft, hright]
  have hsub : subTreeEntries (List.insertionSort
      (fun a b : Entry => strLe a.1 b.1)
      [ea, es, ("Preferences.json", Mode.regular, Hash.blob p)]) "surveys"
      = subTreeEntries root "surveys" := by
    unfold subTreeEntries
    rw [hfs, hes]
  rw [hsub]

def c9s : Survey := [("IdentifierUUID", "A1")]
def c9push : Except String (Hash × Backend) :=
  (NewMemoryBackend "u" "T").WriteTrench 3 "d" "m" (GBytes.raw [1]) [c9s]
def c9b : Backend :=
  match c9push with
  | .ok (_, b) => b
  | .error _ => NewMemoryBackend "u" "T"
def c9H : Hash := (c9b.head).getD (Hash.blob (GBytes.raw []))
def c9cd : CommitData :=
  (Hash.commitData c9H).getD ⟨"", "", 0, "", Hash.blob (GBytes.raw []), []⟩
def c9root : List Entry := (c9cd.treeH.treeEntries).getD []
def c9ea : Entry :=
  (c9root.find? (fun e => e.1 == "attachments")).getD
    ("", Mode.regular, Hash.blob (GBytes.raw []))
def c9es : Entry :=
  (c9root.find? (fun e => e.1 == "surveys")).getD
    ("", Mode.regular, Hash.blob (GBytes.raw []))

/-- C9, witness: writing new preferences on a concrete one-commit trench
keeps the parent's `surveys` and `attachments` entries and the surveys
read-back. -/
theorem writePreferences_frame_witness :
    ∃ b' H' cd' root', c9b.WritePreferences 7 (GBytes.raw [2]) = .ok b' ∧
      b'.head = some H' ∧ Hash.commitData H' = some cd' ∧
      cd'.treeH.treeEntries = some root' ∧
      root'.find? (fun e => e.1 == "attachments") = some c9ea ∧
      root'.find? (fun e => e.1 == "surveys") = some c9es ∧
      root'.find? (fun e => e.1 == "Preferences.json")
        = some ("Preferences.json", Mode.regular, Hash.blob (GBytes.raw [2])) ∧
      b'.ReadSurveys = c9b.ReadSurveys :=
  @writePreferences_frame c9b 7 (GBytes.raw [2]) c9H c9cd c9root c9ea c9es
    (by decide) (by decide) (by decide) (by decide) (by decide) (by decide)


/-! ## Claim C10 -/

theorem readSurveyEntries_spec {es : List Entry}
    (h : ∀ e ∈ es, ∃ s0 : Survey, e = surveyEntry s0) :
    ∃ l, readSurveyEntries es = .ok l ∧ ∀ t ∈ l, t.ID ≠ "" := by
  induction es with
  | nil => exact ⟨[], rfl, by simp⟩
  | cons e rest ih =>
    obtain ⟨s0, he⟩ := h e (List.mem_cons_self _ _)
    obtain ⟨l, hl, hprop⟩ := ih (fun e2 he2 => h e2 (List.mem_cons_of_mem _ he2))
    subst he
    by_cases hd : startsDot (s0.ID ++ ".survey") = true
    · refine ⟨l, ?_, hprop⟩
      unfold readSurveyEntries surveyEntry
      rw [if_pos (by
        show (startsDot (s0.ID ++ ".survey")
          || decide (Mode.regular ≠ Mode.regular)) = true
        rw [hd]
        rfl)]
      exact hl
    · have hd2 : startsDot (s0.ID ++ ".survey") = false := by
        cases hc : startsDot (s0.ID ++ ".survey")
        · rfl
        · exact absurd hc hd
      refine ⟨s0.canon :: l, ?_, ?_⟩
      · unfold readSurveyEntries surveyEntry
        rw [if_neg (by
          show ¬(startsDot (s0.ID ++ ".survey")
            || decide (Mode.regular ≠ Mode.regular)) = true
          rw [hd2]
          decide)]
        rw [hl,
          show readBlob ((s0.ID ++ ".survey", Mode.regular,
              Hash.blob (GBytes.jsonSurvey s0.canon)) : Entry).2.2
            = .ok (GBytes.jsonSurvey s0.canon) from rfl]
        rfl
      · intro t ht
        rcases List.mem_cons.mp ht with h1 | h1
        · rw [h1, canon_ID]
          intro hid
          apply hd
          rw [hid]
          decide
        · exact hprop t h1

/-- C10: a survey without an `IdentifierUUID` entry is accepted by
`WriteTrench` (the missing identity only logs a warning) and stored as a blob
named `.survey`; because `ReadSurveysAtVersion` skips entries whose name
starts with a dot, the committed survey is absent from every subsequent
`ReadSurveys` result: every survey read back has a non-empty id, and this
survey's value is not among them. -/
theorem writeTrench_dotfile_survey (b : Backend) (now : Nat) (d m : String)
    (p : GBytes) (ss : List Survey) (s : Survey)
    (hro : b.readOnly = false)
    (hhd : ∀ H, b.head = some H → (b.commitObject H).isSome = true)
    (hst : ∀ s2 ∈ ss, ∀ a ∈ s2.Attachments,
      b.ExistsAttachment a.name a.checksum = true)
    (hs : s ∈ ss) (hid : s.ID = "") :
    ∃ h' b', b.WriteTrench now d m p ss = .ok (h', b') ∧
      (".survey", Mode.regular, Hash.blob (GBytes.jsonSurvey s.canon))
        ∈ subtreeEntriesOf h' "surveys" ∧
      ∃ l, b'.ReadSurveys = .ok l ∧ (∀ t ∈ l, t.ID ≠ "") ∧ s.canon ∉ l := by
  obtain ⟨⟨ses, aes⟩, hcol⟩ := collectEntries_ok_iff.mpr hst
  obtain ⟨hses, -⟩ := collectEntries_ok_val hcol
  have hcommit : ∃ r, b.commit now b.user d m (writeRootTree p ses aes)
      = .ok r := by
    cases hh : b.head with
    | none =>
      unfold Backend.commit
      simp only [hh]
      exact ⟨_, rfl⟩
    | some H =>
      have hsH := hhd H hh
      cases hco : b.commitObject H with
      | none => rw [hco] at hsH; cases hsH
      | some cd => exact commit_ok_of_head hh hco now b.user d m _
  obtain ⟨⟨h', b'⟩, hcres⟩ := hcommit
  have hw : b.WriteTrench now d m p ss = .ok (h', b') := by
    rw [WriteTrench_eq hro hcol]
    exact hcres
  obtain ⟨-, -, -, -, hhead', hmem', ⟨cd', hcd', htree'⟩, -⟩ := commit_spec hcres
  have hnodup : (([("attachments", Mode.dir, addTree aes),
      ("surveys", Mode.dir, addTree ses),
      ("Preferences.json", Mode.regular, Hash.blob p)] : List Entry).map
        Prod.fst).Nodup := by
    exact (by decide :
      ((["attachments", "surveys", "Preferences.json"] : List String)).Nodup)
  have hroot' : cd'.treeH.treeEntries
      = some (List.insertionSort (fun a b : Entry => strLe a.1 b.1)
          [("attachments", Mode.dir, addTree aes),
            ("surveys", Mode.dir, addTree ses),
            ("Preferences.json", Mode.regular, Hash.blob p)]) := by
    rw [htree']
    unfold writeRootTree
    rw [addTree_entries]
  have hfs : (List.insertionSort (fun a b : Entry => strLe a.1 b.1)
      [("attachments", Mode.dir, addTree aes),
        ("surveys", Mode.dir, addTree ses),
        ("Preferences.json", Mode.regular, Hash.blob p)]).find?
        (fun e => e.1 == "surveys")
      = some ("surveys", Mode.dir, addTree ses) := by
    rw [find?_addTree hnodup]
    rw [List.find?,
      show ((("attachments" : String), Mode.dir, addTree aes).1 == "surveys")
        = false from rfl]
    rw [List.find?,
      show ((("surveys" : String), Mode.dir, addTree ses).1 == "surveys")
        = true from rfl]
  have hsurvmem : (".survey", Mode.regular,
      Hash.blob (GBytes.jsonSurvey s.canon))
      ∈ List.insertionSort (fun a b : Entry => strLe a.1 b.1) ses := by
    rw [List.mem_insertionSort, hses, List.mem_map]
    refine ⟨s, hs, ?_⟩
    unfold surveyEntry
    rw [hid]
    rfl
  have hsub : subtreeEntriesOf h' "surveys"
      = List.insertionSort (fun a b : Entry => strLe a.1 b.1) ses := by
    unfold subtreeEntriesOf
    simp only [hcd', hroot', hfs]
    rw [addTree_entries]
    rfl
  have hall : ∀ e ∈ List.insertionSort (fun a b : Entry => strLe a.1 b.1) ses,
      ∃ s0 : Survey, e = surveyEntry s0 := by
    intro e he
    rw [List.mem_insertionSort, hses, List.mem_map] at he
    obtain ⟨s0, -, he2⟩ := he
    exact ⟨s0, he2.symm⟩
  obtain ⟨l, hl, hprop⟩ := readSurveyEntries_spec hall
  have hco' : b'.commitObject h' = some cd' := by
    unfold Backend.commitObject
    rw [if_pos hmem', hcd']
  have hread : b'.ReadSurveys = .ok l := by
    unfold Backend.ReadSurveys Backend.ReadSurveysAtVersion
    simp only [hhead', hco', hroot']
    have hst2 : subTreeEntries (List.insertionSort
        (fun a b : Entry => strLe a.1 b.1)
        [("attachments", Mode.dir, addTree aes),
          ("surveys", Mode.dir, addTree ses),
          ("Preferences.json", Mode.regular, Hash.blob p)]) "surveys"
        = .ok (List.insertionSort (fun a b : Entry => strLe a.1 b.1) ses) := by
      unfold subTreeEntries
      simp only [hfs]
      rw [show Hash.treeEntries (("surveys", Mode.dir, addTree ses) : Entry).2.2
        = some (List.insertionSort (fun a b : Entry => strLe a.1 b.1) ses)
        from addTree_entries ses]
    rw [hst2]
    exact hl
  refine ⟨h', b', hw, ?_, l, hread, hprop, ?_⟩
  · rw [hsub]
    exact hsurvmem
  · intro hmem
    exact hprop s.canon hmem (by rw [canon_ID, hid])

def c10s : Survey := [("k", "v")]
def c10s2 : Survey := [("IdentifierUUID", "A1")]
def c10b : Backend := NewMemoryBackend "u" "T"

/-- C10, witness: a fresh trench receiving one id-less survey and one normal
survey commits both, the id-less one under the name `.survey`, and only the
normal one is read back. -/
theorem writeTrench_dotfile_survey_witness :
    ∃ h' b', c10b.WriteTrench 5 "d" "m" (GBytes.raw []) [c10s, c10s2]
        = .ok (h', b') ∧
      (".survey", Mode.regular, Hash.blob (GBytes.jsonSurvey (Survey.canon c10s)))
        ∈ subtreeEntriesOf h' "surveys" ∧
      ∃ l, b'.ReadSurveys = .ok l ∧ (∀ t ∈ l, t.ID ≠ "") ∧
        Survey.canon c10s ∉ l :=
  writeTrench_dotfile_survey c10b 5 "d" "m" (GBytes.raw []) [c10s, c10s2] c10s
    (by decide) (fun H hH => by rw [show c10b.head = none from rfl] at hH; cases hH)
    (by decide) (by decide) (by decide)


/-! ## Claim C7 (corrected) -/

theorem attEntriesOf_names {refs : List (List Nat × Hash)} {l : List Attachment}
    {ae : List Entry} (h : attEntriesOf refs l = .ok ae) :
    ae.map Prod.fst = l.map Attachment.name := by
  induction l generalizing ae with
  | nil =>
    unfold attEntriesOf at h
    injection h with h2
    rw [← h2]
    rfl
  | cons a rest ih =>
    unfold attEntriesOf at h
    cases hl : lookupRef refs (Backend.attachmentReference a.name a.checksum) with
    | none => rw [hl] at h; cases h
    | some hh =>
      rw [hl] at h
      cases hrest : attEntriesOf refs rest with
      | error e => rw [hrest] at h; cases h
      | ok ae2 =>
        rw [hrest] at h
        injection h with h2
        rw [← h2, List.map_cons, List.map_cons, ih hrest]

theorem collectEntries_att_names {refs : List (List Nat × Hash)}
    {ss : List Survey} {ses aes : List Entry}
    (h : collectEntries refs ss = .ok (ses, aes)) :
    aes.map Prod.fst = (ss.flatMap Survey.Attachments).map Attachment.name := by
  induction ss generalizing ses aes with
  | nil =>
    unfold collectEntries at h
    injection h with h2
    injection h2 with h3 h4
    rw [← h4]
    rfl
  | cons s rest ih =>
    unfold collectEntries at h
    cases hae : attEntriesOf refs s.Attachments with
    | error e => rw [hae] at h; cases h
    | ok ae =>
      rw [hae] at h
      cases hrest : collectEntries refs rest with
      | error e => rw [hrest] at h; cases h
      | ok v2 =>
        rw [hrest] at h
        injection h with h2
        injection h2 with h3 h4
        rw [← h4, List.flatMap_cons, List.map_append, List.map_append,
          attEntriesOf_names hae, @ih v2.1 v2.2 (by rw [hrest])]

/-- C7, amended: `WriteTrench` performs no deduplication and no conflict
detection on attachment names: the committed `attachments/` tree holds the
sorted concatenation of one entry per attachment reference of each survey, a
permutation of the collected reference entries, so for every name the tree
holds as many entries as there are references to that name across the
submitted surveys — duplicate references to the same content give identical
duplicate entries, and references to the same name with different contents
keep both entries (the commit neither drops one nor fails with
`ConflictingAttachment`). -/
theorem writeTrench_attachment_entries {b : Backend} {now : Nat}
    {d m : String} {p : GBytes} {ss : List Survey} {h' : Hash} {b' : Backend}
    (hw : b.WriteTrench now d m p ss = .ok (h', b')) :
    ∃ ses aes, collectEntries b.refs ss = .ok (ses, aes) ∧
      subtreeEntriesOf h' "attachments"
        = List.insertionSort (fun a b : Entry => strLe a.1 b.1) aes ∧
      (subtreeEntriesOf h' "attachments").Perm aes ∧
      ∀ n : String,
        ((subtreeEntriesOf h' "attachments").filter (fun e => e.1 == n)).length
          = ((ss.flatMap Survey.Attachments).filter
              (fun a => a.name == n)).length := by
  obtain ⟨ses, aes, hcol, hcres⟩ := WriteTrench_ok_collect hw
  obtain ⟨-, -, -, -, -, -, ⟨cd', hcd', htree'⟩, -⟩ := commit_spec hcres
  have hroot' : cd'.treeH.treeEntries
      = some (List.insertionSort (fun a b : Entry => strLe a.1 b.1)
          [("attachments", Mode.dir, addTree aes),
            ("surveys", Mode.dir, addTree ses),
            ("Preferences.json", Mode.regular, Hash.blob p)]) := by
    rw [htree']
    unfold writeRootTree
    rw [addTree_entries]
  have hnodup : (([("attachments", Mode.dir, addTree aes),
      ("surveys", Mode.dir, addTree ses),
      ("Preferences.json", Mode.regular, Hash.blob p)] : List Entry).map
        Prod.fst).Nodup :=
    (by decide : ((["attachments", "surveys", "Preferences.json"] :
      List String)).Nodup)
  have hfa : (List.insertionSort (fun a b : Entry => strLe a.1 b.1)
      [("attachments", Mode.dir, addTree aes),
        ("surveys", Mode.dir, addTree ses),
        ("Preferences.json", Mode.regular, Hash.blob p)]).find?
        (fun e => e.1 == "attachments")
      = some ("attachments", Mode.dir, addTree aes) := by
    rw [find?_addTree hnodup]
    rw [List.find?,
      show ((("attachments" : String), Mode.dir, addTree aes).1
        == "attachments") = true from rfl]
  have hsub : subtreeEntriesOf h' "attachments"
      = List.insertionSort (fun a b : Entry => strLe a.1 b.1) aes := by
    unfold subtreeEntriesOf
    simp only [hcd', hroot', hfa]
    rw [addTree_entries]
    rfl
  have hperm : (subtreeEntriesOf h' "attachments").Perm aes := by
    rw [hsub]
    exact List.perm_insertionSort _ aes
  refine ⟨ses, aes, hcol, hsub, hperm, ?_⟩
  intro n
  rw [← List.countP_eq_length_filter, ← List.countP_eq_length_filter]
  rw [hperm.countP_eq]
  have hnames := collectEntries_att_names hcol
  have h1 : List.countP (fun e : Entry => e.1 == n) aes
      = List.countP (fun x : String => x == n) (aes.map Prod.fst) := by
    rw [List.countP_map]
    rfl
  have h2 : List.countP (fun a : Attachment => a.name == n)
        (ss.flatMap Survey.Attachments)
      = List.countP (fun x : String => x == n)
          ((ss.flatMap Survey.Attachments).map Attachment.name) := by
    rw [List.countP_map]
    rfl
  rw [h1, h2, hnames]

def c7s1 : Survey := [("IdentifierUUID", "A"),
  ("RelationAttachments", "n=p\nd=c1")]
def c7s2 : Survey := [("IdentifierUUID", "B"),
  ("RelationAttachments", "n=p\nd=c1")]
def c7s3 : Survey := [("IdentifierUUID", "C"),
  ("RelationAttachments", "n=q\nd=c2")]
def c7s4 : Survey := [("IdentifierUUID", "D"),
  ("RelationAttachments", "n=q\nd=c3")]
def c7b0 : Backend :=
  applyOp (applyOp (applyOp (NewMemoryBackend "u" "T")
      (.writeAttachment "p" "c1" (GBytes.raw [3])))
    (.writeAttachment "q" "c2" (GBytes.raw [4])))
    (.writeAttachment "q" "c3" (GBytes.raw [5]))
def c7res : Except String (Hash × Backend) :=
  c7b0.WriteTrench 1 "d" "m" (GBytes.raw []) [c7s1, c7s2, c7s3, c7s4]
def c7h : Hash := match c7res with | .ok (h, _) => h | .error _ => Hash.blob (.raw [])
def c7b2 : Backend := match c7res with | .ok (_, b) => b | .error _ => c7b0

/-- C7, counterexample: two surveys referencing the same name with the same
content produce two identical entries (not one), and two surveys referencing
the same name with different contents keep both entries with different
hashes — the commit neither applies last-writer-wins nor fails. -/
theorem writeTrench_attachment_duplicates :
    c7res = .ok (c7h, c7b2) ∧
    subtreeEntriesOf c7h "attachments"
      = [("p", Mode.regular, Hash.blob (GBytes.raw [3])),
        ("p", Mode.regular, Hash.blob (GBytes.raw [3])),
        ("q", Mode.regular, Hash.blob (GBytes.raw [4])),
        ("q", Mode.regular, Hash.blob (GBytes.raw [5]))] := by decide

/-- C7, witness for the amended theorem at the same concrete input. -/
theorem writeTrench_attachment_entries_witness :
    ∃ ses aes, collectEntries c7b0.refs [c7s1, c7s2, c7s3, c7s4]
        = .ok (ses, aes) ∧
      subtreeEntriesOf c7h "attachments"
        = List.insertionSort (fun a b : Entry => strLe a.1 b.1) aes ∧
      (subtreeEntriesOf c7h "attachments").Perm aes ∧
      ∀ n : String,
        ((subtreeEntriesOf c7h "attachments").filter (fun e => e.1 == n)).length
          = (([c7s1, c7s2, c7s3, c7s4].flatMap Survey.Attachments).filter
              (fun a => a.name == n)).length :=
  writeTrench_attachment_entries (by decide :
    c7b0.WriteTrench 1 "d" "m" (GBytes.raw []) [c7s1, c7s2, c7s3, c7s4]
      = .ok (c7h, c7b2))


/-! ## Claim C5: the staged-attachment invariant over whole histories -/

/-- Every attachment referenced by a survey recorded in commit `c` has a
resolvable staging reference in `refs`. -/
def StagedVia (refs : List (List Nat × Hash)) (c : Hash) : Prop :=
  ∀ s ∈ surveyBlobs c, ∀ a ∈ s.Attachments,
    (lookupRef refs (Backend.attachmentReference a.name a.checksum)).isSome = true

/-- The backend invariant: every stored commit has its referenced attachments
staged, the head and all parents of stored commits are stored, and every
staging reference points at a blob. -/
def WFB (b : Backend) : Prop :=
  (∀ c ∈ b.objs, StagedVia b.refs c) ∧
  (∀ H, b.head = some H → H ∈ b.objs) ∧
  (∀ c ∈ b.objs, ∀ cd, c.commitData = some cd → ∀ p2 ∈ cd.parents, p2 ∈ b.objs) ∧
  (∀ p2 ∈ b.refs, ∃ d2, p2.2 = Hash.blob d2)

theorem WFB_init (user trench : String) : WFB (NewMemoryBackend user trench) := by
  refine ⟨?_, ?_, ?_, ?_⟩
  · intro c hc; cases hc
  · intro H hH; cases hH
  · intro c hc; cases hc
  · intro p2 hp2; cases hp2

theorem WFB_commit {b : Backend} {now : Nat} {u d m : String} {t c : Hash}
    {b' : Backend} (hwf : WFB b)
    (hts : ∀ s ∈ surveyBlobsOfTree t, ∀ a ∈ s.Attachments,
      (lookupRef b.refs (Backend.attachmentReference a.name a.checksum)).isSome
        = true)
    (hc : b.commit now u d m t = .ok (c, b')) : WFB b' := by
  obtain ⟨hrefs, -, -, -, hhead', hmem', ⟨cd, hcd, htree⟩, hdisj⟩ := commit_spec hc
  have hblobs : surveyBlobs c = surveyBlobsOfTree t := by
    unfold surveyBlobs
    simp only [hcd]
    rw [htree]
  rcases hdisj with ⟨heq, -⟩ | ⟨hobjs, hpar⟩
  · rw [heq]
    exact hwf
  · refine ⟨?_, ?_, ?_, ?_⟩
    · intro c2 hc2
      rw [hobjs] at hc2
      rcases List.mem_cons.mp hc2 with he | hm
      · subst he
        intro s hs a ha
        rw [hblobs] at hs
        rw [hrefs]
        exact hts s hs a ha
      · intro s hs a ha
        rw [hrefs]
        exact hwf.1 c2 hm s hs a ha
    · intro H hH
      rw [hhead'] at hH
      injection hH with hH2
      rw [← hH2]
      exact hmem'
    · intro c2 hc2 cd2 hcd2 p2 hp2
      rw [hobjs] at hc2 ⊢
      rcases List.mem_cons.mp hc2 with he | hm
      · subst he
        exact List.mem_cons_of_mem _ (hpar cd2 hcd2 p2 hp2)
      · exact List.mem_cons_of_mem _ (hwf.2.2.1 c2 hm cd2 hcd2 p2 hp2)
    · rw [hrefs]
      exact hwf.2.2.2

theorem writeRootTree_surveys (p : GBytes) (ses aes : List Entry) :
    surveyBlobsOfTree (writeRootTree p ses aes)
      = (List.insertionSort (fun a b : Entry => strLe a.1 b.1) ses).filterMap
          (fun en => match en.2.2 with
            | .blob (.jsonSurvey s) => some s
            | _ => none) := by
  have hnodup : (([("attachments", Mode.dir, addTree aes),
      ("surveys", Mode.dir, addTree ses),
      ("Preferences.json", Mode.regular, Hash.blob p)] : List Entry).map
        Prod.fst).Nodup :=
    (by decide : ((["attachments", "surveys", "Preferences.json"] :
      List String)).Nodup)
  have h1 : (writeRootTree p ses aes).treeEntries
      = some (List.insertionSort (fun a b : Entry => strLe a.1 b.1)
          [("attachments", Mode.dir, addTree aes),
            ("surveys", Mode.dir, addTree ses),
            ("Preferences.json", Mode.regular, Hash.blob p)]) := by
    unfold writeRootTree
    rw [addTree_entries]
  have hfs : (List.insertionSort (fun a b : Entry => strLe a.1 b.1)
      [("attachments", Mode.dir, addTree aes),
        ("surveys", Mode.dir, addTree ses),
        ("Preferences.json", Mode.regular, Hash.blob p)]).find?
        (fun e => e.1 == "surveys")
      = some ("surveys", Mode.dir, addTree ses) := by
    rw [find?_addTree hnodup]
    rw [List.find?,
      show ((("attachments" : String), Mode.dir, addTree aes).1 == "surveys")
        = false from rfl]
    rw [List.find?,
      show ((("surveys" : String), Mode.dir, addTree ses).1 == "surveys")
        = true from rfl]
  unfold surveyBlobsOfTree
  simp only [h1, hfs]
  rw [addTree_entries]

theorem WFB_WriteTrench {b : Backend} {now : Nat} {d m : String} {p : GBytes}
    {ss : List Survey} {h' : Hash} {b' : Backend} (hwf : WFB b)
    (hw : b.WriteTrench now d m p ss = .ok (h', b')) : WFB b' := by
  obtain ⟨ses, aes, hcol, hcres⟩ := WriteTrench_ok_collect hw
  refine WFB_commit hwf ?_ hcres
  intro s hsmem a ha
  rw [writeRootTree_surveys, List.mem_filterMap] at hsmem
  obtain ⟨e, he, hdec⟩ := hsmem
  rw [List.mem_insertionSort] at he
  obtain ⟨hses, -⟩ := collectEntries_ok_val hcol
  rw [hses, List.mem_map] at he
  obtain ⟨s0, hs0, he2⟩ := he
  have hse : s = s0.canon := by
    rw [← he2] at hdec
    unfold surveyEntry at hdec
    injection hdec with hdec2
    exact hdec2.symm
  rw [hse, canon_Attachments] at ha
  exact collectEntries_ok_iff.mp ⟨_, hcol⟩ s0 hs0 a ha


theorem commitObject_some {b : Backend} {h : Hash} {cd : CommitData}
    (hco : b.commitObject h = some cd) :
    h ∈ b.objs ∧ h.commitData = some cd := by
  unfold Backend.commitObject at hco
  by_cases hm : h ∈ b.objs
  · rw [if_pos hm] at hco
    exact ⟨hm, hco⟩
  · rw [if_neg hm] at hco
    cases hco

theorem WritePreferences_ok_spec {b : Backend} {now : Nat} {p : GBytes}
    {b' : Backend} (h : b.WritePreferences now p = .ok b') :
    (b.head = none ∧ ∃ c, b.commit now b.user "terminal" "Import Preferences"
        (addTree [("Preferences.json", Mode.regular, Hash.blob p)])
        = .ok (c, b')) ∨
    (∃ hh cd root ea es c, b.head = some hh ∧ b.commitObject hh = some cd ∧
      cd.treeH.treeEntries = some root ∧
      root.find? (fun e => e.1 == "attachments") = some ea ∧
      root.find? (fun e => e.1 == "surveys") = some es ∧
      b.commit now b.user "terminal" "Import Preferences"
        (addTree [ea, es, ("Preferences.json", Mode.regular, Hash.blob p)])
        = .ok (c, b')) := by
  unfold Backend.WritePreferences at h
  by_cases hro : b.readOnly = true
  · rw [if_pos hro] at h; cases h
  · rw [if_neg hro] at h
    cases hh : b.head with
    | none =>
      simp only [hh] at h
      cases hc : b.commit now b.user "terminal" "Import Preferences"
          (addTree [("Preferences.json", Mode.regular, Hash.blob p)]) with
      | error e => rw [hc] at h; cases h
      | ok v =>
        obtain ⟨c, b2⟩ := v
        rw [hc] at h
        injection h with h2
        have h3 : b2 = b' := h2
        exact Or.inl ⟨rfl, c, by rw [h3]⟩
    | some hh2 =>
      simp only [hh] at h
      cases hco : b.commitObject hh2 with
      | none => rw [hco] at h; cases h
      | some cd =>
        simp only [hco] at h
        cases hroot : cd.treeH.treeEntries with
        | none => rw [hroot] at h; cases h
        | some root =>
          simp only [hroot] at h
          cases hea : root.find? (fun e => e.1 == "attachments") with
          | none => rw [hea] at h; cases h
          | some ea =>
            simp only [hea] at h
            cases hes : root.find? (fun e => e.1 == "surveys") with
            | none => rw [hes] at h; cases h
            | some es =>
              simp only [hes] at h
              cases hc : b.commit now b.user "terminal" "Import Preferences"
                  (addTree [ea, es,
                    ("Preferences.json", Mode.regular, Hash.blob p)]) with
              | error e => rw [hc] at h; cases h
              | ok v =>
                obtain ⟨c, b2⟩ := v
                rw [hc] at h
                injection h with h2
                have h3 : b2 = b' := h2
                rw [h3] at hc
                exact Or.inr ⟨hh2, cd, root, ea, es, c, rfl, hco, hroot,
                  hea, hes, hc⟩

theorem Rollback_ok_spec {b : Backend} {now : Nat} {v : Hash} {b' : Backend}
    (h : b.Rollback now v = .ok b') :
    ∃ cd c, b.commitObject v = some cd ∧
      b.commit now b.user "terminal" "Rollback" cd.treeH = .ok (c, b') := by
  unfold Backend.Rollback at h
  cases hcd : b.commitObject v with
  | none => rw [hcd] at h; cases h
  | some cd =>
    simp only [hcd] at h
    cases hroot : cd.treeH.treeEntries with
    | none => rw [hroot] at h; cases h
    | some es =>
      simp only [hroot] at h
      cases hc : b.commit now b.user "terminal" "Rollback" cd.treeH with
      | error e => rw [hc] at h; cases h
      | ok w =>
        obtain ⟨c, b2⟩ := w
        rw [hc] at h
        injection h with h2
        have h3 : b2 = b' := h2
        rw [h3] at hc
        exact ⟨cd, c, rfl, hc⟩

theorem prefsTree_surveyBlobs {tH : Hash} {root : List Entry} {ea es : Entry}
    (hroot : tH.treeEntries = some root)
    (hea : root.find? (fun e => e.1 == "attachments") = some ea)
    (hes : root.find? (fun e => e.1 == "surveys") = some es) (p : GBytes) :
    surveyBlobsOfTree
        (addTree [ea, es, ("Preferences.json", Mode.regular, Hash.blob p)])
      = surveyBlobsOfTree tH := by
  have hea1 : ea.1 = "attachments" := by simpa using List.find?_some hea
  have hes1 : es.1 = "surveys" := by simpa using List.find?_some hes
  have hnodup : (([ea, es,
      (("Preferences.json" : String), Mode.regular, Hash.blob p)]).map
        Prod.fst).Nodup := by
    rw [List.map_cons, List.map_cons, List.map_cons, hea1, hes1]
    exact (by decide :
      ((["attachments", "surveys", "Preferences.json"] : List String)
        ++ List.map Prod.fst ([] : List Entry)).Nodup)
  have hfs : (List.insertionSort (fun a b : Entry => strLe a.1 b.1)
      [ea, es, ("Preferences.json", Mode.regular, Hash.blob p)]).find?
        (fun e => e.1 == "surveys") = some es := by
    rw [find?_addTree hnodup]
    rw [List.find?, show (ea.1 == "surveys") = false by rw [hea1]; rfl]
    rw [List.find?, show (es.1 == "surveys") = true by rw [hes1]; rfl]
  have h1 : (addTree [ea, es,
      ("Preferences.json", Mode.regular, Hash.blob p)]).treeEntries
      = some (List.insertionSort (fun a b : Entry => strLe a.1 b.1)
          [ea, es, ("Preferences.json", Mode.regular, Hash.blob p)]) :=
    addTree_entries _
  unfold surveyBlobsOfTree
  simp only [h1, hfs, hroot, hes]

theorem WFB_WritePreferences {b : Backend} {now : Nat} {p : GBytes}
    {b' : Backend} (hwf : WFB b) (h : b.WritePreferences now p = .ok b') :
    WFB b' := by
  rcases WritePreferences_ok_spec h with ⟨-, c, hc⟩ |
    ⟨hh2, cd, root, ea, es, c, hh, hco, hroot, hea, hes, hc⟩
  · refine WFB_commit hwf ?_ hc
    intro s hs a ha
    have hempty : surveyBlobsOfTree
        (addTree [("Preferences.json", Mode.regular, Hash.blob p)]) = [] := by
      unfold surveyBlobsOfTree
      rw [addTree_entries]
      rfl
    rw [hempty] at hs
    cases hs
  · refine WFB_commit hwf ?_ hc
    intro s hs a ha
    obtain ⟨hmem, hcd2⟩ := commitObject_some hco
    rw [prefsTree_surveyBlobs hroot hea hes p] at hs
    have hs2 : s ∈ surveyBlobs hh2 := by
      unfold surveyBlobs
      simp only [hcd2]
      exact hs
    exact hwf.1 hh2 hmem s hs2 a ha

theorem WFB_Rollback {b : Backend} {now : Nat} {v : Hash} {b' : Backend}
    (hwf : WFB b) (h : b.Rollback now v = .ok b') : WFB b' := by
  obtain ⟨cd, c, hcd, hc⟩ := Rollback_ok_spec h
  refine WFB_commit hwf ?_ hc
  intro s hs a ha
  obtain ⟨hmem, hcd2⟩ := commitObject_some hcd
  have hs2 : s ∈ surveyBlobs v := by
    unfold surveyBlobs
    simp only [hcd2]
    exact hs
  exact hwf.1 v hmem s hs2 a ha

theorem WFB_WriteAttachment {b : Backend} {n c : String} {d : GBytes}
    {b' : Backend} (hwf : WFB b) (h : b.WriteAttachment n c d = .ok b') :
    WFB b' := by
  unfold Backend.WriteAttachment at h
  by_cases hro : b.readOnly = true
  · rw [if_pos hro] at h; cases h
  · rw [if_neg hro] at h
    injection h with h2
    rw [← h2]
    refine ⟨?_, hwf.2.1, hwf.2.2.1, ?_⟩
    · intro c2 hc2 s hs a ha
      exact lookupRef_setRef_mono (hwf.1 c2 hc2 s hs a ha)
    · intro p2 hp2
      rcases mem_setRef hp2 with he | hm
      · exact ⟨d, by rw [he]⟩
      · exact hwf.2.2.2 p2 hm

theorem sync_snd (b : Backend) (now : Nat) (req : SyncRequest) :
    (SyncTrench b now req).2 = b ∨
      ∃ h', b.WriteTrench now req.device req.message req.preferences req.surveys
        = .ok (h', (SyncTrench b now req).2) := by
  by_cases hcond : b.head ≠ none ∧ req.head ≠ b.head
  · left
    unfold SyncTrench
    rw [dif_pos hcond]
    cases hs : b.ReadSurveys with
    | error e => rfl
    | ok v =>
      cases hp : b.ReadPreferences with
      | error e => rfl
      | ok v2 => rfl
  · by_cases hro : b.readOnly = true
    · left
      unfold SyncTrench
      rw [dif_neg hcond, if_pos hro]
      cases hs : b.ReadSurveys with
      | error e => rfl
      | ok v =>
        cases hp : b.ReadPreferences with
        | error e => rfl
        | ok v2 => rfl
    · by_cases hmiss : (missingSet b req.surveys).isEmpty = true
      · cases hw : b.WriteTrench now req.device req.message req.preferences
            req.surveys with
        | error e =>
          left
          unfold SyncTrench
          rw [dif_neg hcond, if_neg hro, if_pos hmiss, hw]
        | ok v =>
          obtain ⟨h2, b2⟩ := v
          right
          refine ⟨h2, ?_⟩
          unfold SyncTrench
          rw [dif_neg hcond, if_neg hro, if_pos hmiss, hw]
      · left
        unfold SyncTrench
        rw [dif_neg hcond, if_neg hro, if_neg hmiss]

theorem WFB_applyOp {b : Backend} (hwf : WFB b) (op : Op) :
    WFB (applyOp b op) := by
  cases op with
  | writeTrench now d m p ss =>
    cases hw : b.WriteTrench now d m p ss with
    | error e => simp only [applyOp, hw]; exact hwf
    | ok v =>
      obtain ⟨h2, b2⟩ := v
      simp only [applyOp, hw]
      exact WFB_WriteTrench hwf hw
  | writeAttachment n c d =>
    cases hw : b.WriteAttachment n c d with
    | error e => simp only [applyOp, hw]; exact hwf
    | ok b2 =>
      simp only [applyOp, hw]
      exact WFB_WriteAttachment hwf hw
  | writePreferences now p =>
    cases hw : b.WritePreferences now p with
    | error e => simp only [applyOp, hw]; exact hwf
    | ok b2 =>
      simp only [applyOp, hw]
      exact WFB_WritePreferences hwf hw
  | rollback now v =>
    cases hw : b.Rollback now v with
    | error e => simp only [applyOp, hw]; exact hwf
    | ok b2 =>
      simp only [applyOp, hw]
      exact WFB_Rollback hwf hw
  | sync now req =>
    rcases sync_snd b now req with he | ⟨h2, hw⟩
    · simp only [applyOp]
      rw [he]
      exact hwf
    · simp only [applyOp]
      exact WFB_WriteTrench hwf hw
  | setReadOnly v =>
    exact hwf

theorem runOps_WFB {b : Backend} (hwf : WFB b) (ops : List Op) :
    WFB (runOps b ops) := by
  induction ops generalizing b with
  | nil => exact hwf
  | cons op rest ih => exact ih (WFB_applyOp hwf op)

theorem Reach_mem {objs : List Hash} {H c : Hash}
    (hpar : ∀ c2 ∈ objs, ∀ cd, c2.commitData = some cd →
      ∀ p2 ∈ cd.parents, p2 ∈ objs)
    (hH : H ∈ objs) (hr : Reach H c) : c ∈ objs := by
  induction hr with
  | refl => exact hH
  | parent hr2 hcd hp ih => exact hpar _ ih _ hcd _ hp

/-- C5: starting from a fresh trench, after any sequence of backend
operations, every commit reachable from the head references only staged
attachments: for every survey recorded in such a commit, `ReadAttachment`
succeeds on each of its attachment references.  (A commit is never created
while a referenced attachment is unstaged: `WriteTrench` fails on the missing
reference before committing.) -/
theorem committed_attachments_readable (user trench : String) (ops : List Op)
    (H c : Hash) (s : Survey) (a : Attachment)
    (hh : (runOps (NewMemoryBackend user trench) ops).head = some H)
    (hr : Reach H c)
    (hs : s ∈ surveyBlobs c)
    (ha : a ∈ s.Attachments) :
    ∃ d2, (runOps (NewMemoryBackend user trench) ops).ReadAttachment
      a.name a.checksum = .ok d2 := by
  have hwf : WFB (runOps (NewMemoryBackend user trench) ops) :=
    runOps_WFB (WFB_init user trench) ops
  have hHmem : H ∈ (runOps (NewMemoryBackend user trench) ops).objs :=
    hwf.2.1 H hh
  have hcmem : c ∈ (runOps (NewMemoryBackend user trench) ops).objs :=
    Reach_mem hwf.2.2.1 hHmem hr
  have hsome := hwf.1 c hcmem s hs a ha
  cases hl : lookupRef (runOps (NewMemoryBackend user trench) ops).refs
      (Backend.attachmentReference a.name a.checksum) with
  | none => rw [hl] at hsome; cases hsome
  | some hv =>
    have hplain := lookupRef_mem hl
    obtain ⟨d2, hd2⟩ := hwf.2.2.2 _ hplain
    refine ⟨d2, ?_⟩
    unfold Backend.ReadAttachment
    rw [hl]
    rw [show hv = Hash.blob d2 from hd2]
    rfl

def c5s : Survey := [("IdentifierUUID", "A1"),
  ("RelationAttachments", "n=p\nd=c")]
def c5ops : List Op := [.writeAttachment "p" "c" (GBytes.raw [1]),
  .writeTrench 1 "d" "m" (GBytes.raw []) [c5s]]
def c5b : Backend := runOps (NewMemoryBackend "u" "T") c5ops
def c5H : Hash := (c5b.head).getD (Hash.blob (GBytes.raw []))

/-- C5, witness: the head commit of a concrete two-operation history has its
referenced attachment readable. -/
theorem committed_attachments_readable_witness :
    ∃ d2, c5b.ReadAttachment "p" "c" = .ok d2 :=
  committed_attachments_readable "u" "T" c5ops c5H c5H (Survey.canon c5s)
    ⟨"p", "c"⟩ (by decide) (Reach.refl c5H) (by decide) (by decide)

end IDig
